import Mathlib

set_option linter.unusedVariables false
set_option maxRecDepth 100000

/-!
# Verification of the domenec bencode codec

Shallow embedding of the bencode decoder (`src/domenec/src/bdecode.rs`),
the encoder (`src/src/bencode.rs`), the error taxonomy (`src/src/error.rs`)
and the `ByteString` wrapper (`src/src/bytestring.rs`).

Modelling conventions:
* a byte is a `Nat`, a buffer (`&[u8]` / `Vec<u8>` / `ByteString`) is a
  `List Nat`;
* the Rust `i64` is an `Int` pushed back into the two's-complement range by
  `wrap64` at every operation where the source performs (release-mode,
  wrapping) 64-bit arithmetic;
* the stateful `BDecoder { bytes, cursor }` is modelled by passing the byte
  buffer and the cursor explicitly; every parsing method returns its
  `Result` paired with the cursor it leaves behind;
* the recursion of `parse_type` through list and dictionary elements is
  bounded by an explicit fuel parameter.  `none` marks fuel exhaustion — an
  artifact of the embedding, proved unreachable for the fuel that `decode`
  supplies (the totality lemmas below).  The element loops of `parse_list` and
  `parse_dict` take the recursive dispatcher as an explicit argument `pt`
  so that the whole development recurses structurally on fuel alone;
* `LinkedHashMap` (the external `linked_hash_map` crate) is modelled as an
  insertion-ordered association list; its `insert` replaces the value of an
  existing key and refreshes the entry to the back of the iteration order.
-/

/-! ## Byte constants and 64-bit wrapping -/

def iB : Nat := 105     -- b'i'
def lB : Nat := 108     -- b'l'
def dB : Nat := 100     -- b'd'
def eB : Nat := 101     -- b'e'
def colonB : Nat := 58  -- b':'
def minusB : Nat := 45  -- b'-'
def zeroB : Nat := 48   -- b'0'

/-- `u8::is_ascii_digit`: the byte is in `b'0' ..= b'9'`. -/
def isDigitB (v : Nat) : Bool := 48 ≤ v && v ≤ 57

/-- Reduce an unbounded integer into the `i64` range `[-2^63, 2^63)`,
modelling Rust's two's-complement wraparound. -/
def wrap64 (x : Int) : Int := (x + 2 ^ 63) % 2 ^ 64 - 2 ^ 63

/-! ## Error taxonomy (`src/src/error.rs`) and value tree

`DecodingError::MissingIdentifier(char)` stores the expected byte (the Rust
code casts it with `expected as char`); `KeyWithoutValue` stores the raw
bytes of the key (`ByteString`). -/

inductive DecodingError where
  | MissingIdentifier (expected : Nat)
  | KeyWithoutValue (key : List Nat)
  | StringWithoutLength
  | NotANumber
  | EndOfFile
  | NegativeZero
  | NegativeStringLen
  deriving Repr, DecidableEq

/-- `BEncodingType` from `bdecode.rs`.  `Dictionary` is the
`LinkedHashMap<ByteString, BEncodingType>` as an insertion-ordered list of
key/value pairs (`LinkedHashMap` equality compares the two iteration
sequences, which this list equality mirrors). -/
inductive BEncodingType where
  | Integer (n : Int)
  | String (s : List Nat)
  | List (l : List BEncodingType)
  | Dictionary (d : List (List Nat × BEncodingType))
  deriving Repr

/-- `LinkedHashMap::insert`: drop any existing entry for the key, then attach
the new entry at the back of the iteration order. -/
def lhmInsert (m : List (List Nat × BEncodingType)) (k : List Nat)
    (v : BEncodingType) : List (List Nat × BEncodingType) :=
  m.filter (fun p => !(decide (p.1 = k))) ++ [(k, v)]

/-! ## The decoder (`src/domenec/src/bdecode.rs`) -/

/-- `BDecoder::peek`: `self.bytes.get(self.cursor).cloned()`. -/
def peek (b : List Nat) (c : Nat) : Option Nat := b[c]?

/-- `BDecoder::advance`: read the current byte, then step the cursor. -/
def advance (b : List Nat) (c : Nat) : Except DecodingError Nat × Nat :=
  match peek b c with
  | none => (.error .EndOfFile, c + 1)
  | some v => (.ok v, c + 1)

/-- `BDecoder::expect_char`: match the next byte against a grammar literal;
consume it on success, leave the cursor untouched on failure. -/
def expect_char (b : List Nat) (c : Nat) (expected : Nat) :
    Except DecodingError Nat × Nat :=
  match peek b c with
  | none => (.error .EndOfFile, c)
  | some chr =>
    if chr = expected then advance b c
    else (.error (.MissingIdentifier expected), c)

/-- The digit-accumulation loop of `read_num`:
`while let Some(v) = self.peek() { if v.is_ascii_digit() { acc = acc*10 + (v - b'0') as i64; ... } }`.
The fuel only bounds the iteration count; callers pass `b.length`, which the
loop can never exhaust before its natural stop. -/
def digitsLoop : Nat → List Nat → Nat → Int → Int × Nat
  | 0, _, c, acc => (acc, c)
  | fuel + 1, b, c, acc =>
    match peek b c with
    | some v =>
      if isDigitB v then digitsLoop fuel b (c + 1) (wrap64 (acc * 10 + ((v - 48 : Nat) : Int)))
      else (acc, c)
    | none => (acc, c)

/-- `BDecoder::read_num`: optional `-` sign, a mandatory first digit (with
the `-0` check), then the digit loop; the final `acc * neg_const` is 64-bit
(wrapping) multiplication. -/
def read_num (b : List Nat) (c : Nat) : Except DecodingError Int × Nat :=
  let neg : Bool := decide (peek b c = some minusB)
  let sc := if neg then c + 1 else c
  match peek b sc with
  | none => (.error .EndOfFile, sc)
  | some chr =>
    if isDigitB chr = false then (.error .NotANumber, sc)
    else if neg && decide (chr = zeroB) then (.error .NegativeZero, sc)
    else
      let r := digitsLoop b.length b sc 0
      (.ok (wrap64 (r.1 * (if neg then (-1 : Int) else 1))), r.2)

/-- `BDecoder::parse_str`: length prefix via `read_num` (any failure is
collapsed to `StringWithoutLength`), the negative-length check, the `:`
literal, then the bounds-checked slice of the body. -/
def parse_str (b : List Nat) (c : Nat) : Except DecodingError (List Nat) × Nat :=
  match read_num b c with
  | (.error _, c₁) => (.error .StringWithoutLength, c₁)
  | (.ok len, c₁) =>
    if len < 0 then (.error .NegativeStringLen, c₁)
    else
      match expect_char b c₁ colonB with
      | (.error e, c₂) => (.error e, c₂)
      | (.ok _, c₂) =>
        let start := c₂
        let stop := start + len.toNat
        if stop > b.length then (.error .EndOfFile, b.length)
        else (.ok ((b.drop start).take len.toNat), stop)

/-- `BDecoder::parse_int`: the `i` literal, the number, the `e` literal. -/
def parse_int (b : List Nat) (c : Nat) : Except DecodingError Int × Nat :=
  match expect_char b c iB with
  | (.error e, c') => (.error e, c')
  | (.ok _, c₁) =>
    match read_num b c₁ with
    | (.error e, c') => (.error e, c')
    | (.ok i, c₂) =>
      match expect_char b c₂ eB with
      | (.error e, c') => (.error e, c')
      | (.ok _, c₃) => (.ok i, c₃)

/-- Map the payload of a parsing result, keeping error and cursor. -/
def mapRes (g : α → β) : Except DecodingError α × Nat → Except DecodingError β × Nat
  | (.ok a, c) => (.ok (g a), c)
  | (.error e, c) => (.error e, c)

/-- The element loop of `parse_list`:
`while self.peek().filter(|&c| c != b'e').is_some() { list.push(self.parse_type()?); }`
followed by `expect_char(b'e')`.  `pt` is the recursive `parse_type` at the
current fuel. -/
def parse_list_loop (pt : List Nat → Nat → Option (Except DecodingError BEncodingType × Nat)) :
    Nat → List Nat → Nat → List BEncodingType →
    Option (Except DecodingError (List BEncodingType) × Nat)
  | 0, _, _, _ => none
  | g + 1, b, c, acc =>
    match peek b c with
    | none => some (.error .EndOfFile, c)
    | some x =>
      if x = eB then some (.ok acc, c + 1)
      else
        match pt b c with
        | none => none
        | some (.error e, c') => some (.error e, c')
        | some (.ok v, c') => parse_list_loop pt g b c' (acc ++ [v])

/-- The pair loop of `parse_dict`: key via `parse_str`, value via
`parse_type` with its error rewrapped to `KeyWithoutValue(key)`, entry
stored by `LinkedHashMap::insert`; then `expect_char(b'e')`. -/
def parse_dict_loop (pt : List Nat → Nat → Option (Except DecodingError BEncodingType × Nat)) :
    Nat → List Nat → Nat → List (List Nat × BEncodingType) →
    Option (Except DecodingError (List (List Nat × BEncodingType)) × Nat)
  | 0, _, _, _ => none
  | g + 1, b, c, acc =>
    match peek b c with
    | none => some (.error .EndOfFile, c)
    | some x =>
      if x = eB then some (.ok acc, c + 1)
      else
        match parse_str b c with
        | (.error e, c') => some (.error e, c')
        | (.ok key, c₁) =>
          match pt b c₁ with
          | none => none
          | some (.error _, c') => some (.error (.KeyWithoutValue key), c')
          | some (.ok v, c₂) => parse_dict_loop pt g b c₂ (lhmInsert acc key v)

/-- `BDecoder::parse_list`: the `l` literal, then the element loop. -/
def parse_list' (pt : List Nat → Nat → Option (Except DecodingError BEncodingType × Nat))
    (g : Nat) (b : List Nat) (c : Nat) :
    Option (Except DecodingError (List BEncodingType) × Nat) :=
  match expect_char b c lB with
  | (.error e, c') => some (.error e, c')
  | (.ok _, c₁) => parse_list_loop pt g b c₁ []

/-- `BDecoder::parse_dict`: the `d` literal, then the pair loop. -/
def parse_dict' (pt : List Nat → Nat → Option (Except DecodingError BEncodingType × Nat))
    (g : Nat) (b : List Nat) (c : Nat) :
    Option (Except DecodingError (List (List Nat × BEncodingType)) × Nat) :=
  match expect_char b c dB with
  | (.error e, c') => some (.error e, c')
  | (.ok _, c₁) => parse_dict_loop pt g b c₁ []

/-- `BDecoder::parse_type`: dispatch on the peeked byte — `i` integer,
`l` list, `d` dictionary, anything else a byte string. -/
def parse_type : Nat → List Nat → Nat → Option (Except DecodingError BEncodingType × Nat)
  | 0, _, _ => none
  | f + 1, b, c =>
    match peek b c with
    | none => some (.error .EndOfFile, c)
    | some x =>
      if x = iB then some (mapRes BEncodingType.Integer (parse_int b c))
      else if x = lB then (parse_list' (parse_type f) f b c).map (mapRes BEncodingType.List)
      else if x = dB then (parse_dict' (parse_type f) f b c).map (mapRes BEncodingType.Dictionary)
      else some (mapRes BEncodingType.String (parse_str b c))

/-- `bdecode::decode`: run `parse_type` from cursor 0.  The fuel
`2 * |b| + 1` is an upper bound on the recursion depth of `parse_type`
(proved never exhausted, see the totality lemmas). -/
def decode (inp : List Nat) : Option (Except DecodingError BEncodingType × Nat) :=
  parse_type (2 * inp.length + 1) inp 0

/-! ## The encoder (`src/src/bencode.rs`) -/

/-- Decimal digit bytes of a natural number, most significant first.
The fuel (always at least the digit count when starting at `n + 1`) makes
the recursion structural. -/
def toDecimalAux : Nat → Nat → List Nat → List Nat
  | 0, _, acc => acc
  | fuel + 1, n, acc =>
    if n < 10 then (48 + n) :: acc
    else toDecimalAux fuel (n / 10) ((48 + n % 10) :: acc)

/-- Decimal digit bytes of a natural number (`"0"` for 0). -/
def toDecimal (n : Nat) : List Nat := toDecimalAux (n + 1) n []

/-- `encode_num`: `buf.extend(int.to_string().bytes())`.  Modelled from the
standard library's `i64::to_string`: a `-` sign for negatives followed by
the decimal digits of the magnitude. -/
def encode_num (int : Int) : List Nat :=
  if int < 0 then minusB :: toDecimal (-int).toNat else toDecimal int.toNat

/-- `encode_int`: `i`, the decimal number, `e`. -/
def encode_int (int : Int) : List Nat := iB :: (encode_num int ++ [eB])

/-- `encode_bytestring`: `encode_num(bs.0.len() as i64)`, `:`, the raw
bytes.  The `usize → i64` cast is the 64-bit wrap. -/
def encode_bytestring (bs : List Nat) : List Nat :=
  encode_num (wrap64 (bs.length : Int)) ++ colonB :: bs

mutual

/-- `encode_type`: dispatch over the four variants. -/
def encode_type : BEncodingType → List Nat
  | .Integer int => encode_int int
  | .String bytes => encode_bytestring bytes
  | .List list => lB :: (encode_items list ++ [eB])
  | .Dictionary dict => dB :: (encode_pairs dict ++ [eB])

/-- The element loop of `encode_list`. -/
def encode_items : List BEncodingType → List Nat
  | [] => []
  | item :: rest => encode_type item ++ encode_items rest

/-- The `(key, val)` loop of `encode_dict` (`encode_bytestring(key)` then
`encode_type(val)`, in stored iteration order). -/
def encode_pairs : List (List Nat × BEncodingType) → List Nat
  | [] => []
  | p :: rest => encode_bytestring p.1 ++ (encode_type p.2 ++ encode_pairs rest)

end

/-- `bencode::encode`: serialize one value tree into a fresh buffer. -/
def encode (bencoded : BEncodingType) : List Nat := encode_type bencoded

/-! ## Well-formedness of a value tree

A tree is constructible under the data model when every `Integer` fits in
`i64`, every byte-string (and every dictionary key) has a length
representable as a non-negative `i64`, and no dictionary holds a duplicate
key. -/

/-- Does `k` occur among the keys of the association list? -/
def keyMem (k : List Nat) : List (List Nat × BEncodingType) → Bool
  | [] => false
  | p :: ps => decide (p.1 = k) || keyMem k ps

/-- Are the keys of the association list pairwise distinct? -/
def keysDistinct : List (List Nat × BEncodingType) → Bool
  | [] => true
  | p :: ps => !(keyMem p.1 ps) && keysDistinct ps

mutual

/-- Well-formedness of one value. -/
def wfV : BEncodingType → Bool
  | .Integer n => decide (-(2 ^ 63) ≤ n) && decide (n < 2 ^ 63)
  | .String s => decide (s.length < 2 ^ 63)
  | .List l => wfL l
  | .Dictionary d => keysDistinct d && wfD d

/-- Well-formedness of every element of a list. -/
def wfL : List BEncodingType → Bool
  | [] => true
  | x :: xs => wfV x && wfL xs

/-- Well-formedness of every entry of a dictionary. -/
def wfD : List (List Nat × BEncodingType) → Bool
  | [] => true
  | p :: ps => decide (p.1.length < 2 ^ 63) && wfV p.2 && wfD ps

end

/-! ## Pure views of the digit loop

`foldW` is the digit accumulation of `read_num` expressed as a fold over
the digit bytes (64-bit wrapping at every step, like the source); `natFold`
is the same accumulation in unbounded arithmetic. -/

/-- `acc = acc * 10 + (v - b'0')` with 64-bit wraparound, folded over a
digit string. -/
def foldW (acc : Int) (ds : List Nat) : Int :=
  ds.foldl (fun a d => wrap64 (a * 10 + ((d - 48 : Nat) : Int))) acc

/-- The same accumulation in unbounded natural arithmetic. -/
def natFold (a : Nat) (ds : List Nat) : Nat :=
  ds.foldl (fun x d => x * 10 + (d - 48)) a

/-- The same accumulation in unbounded integer arithmetic (no wrapping). -/
def foldN (a : Int) (ds : List Nat) : Int :=
  ds.foldl (fun x d => x * 10 + ((d - 48 : Nat) : Int)) a

/-! ## Cursor and buffer basics -/

theorem peek_eq_head_drop (b : List Nat) (c : Nat) : peek b c = (b.drop c).head? :=
  (List.head?_drop b c).symm

theorem peek_of_drop_cons {b t : List Nat} {x c : Nat} (h : b.drop c = x :: t) :
    peek b c = some x := by
  rw [peek_eq_head_drop, h]; rfl

theorem peek_of_drop_nil {b : List Nat} {c : Nat} (h : b.drop c = []) :
    peek b c = none := by
  rw [peek_eq_head_drop, h]; rfl

theorem drop_succ_of_drop_cons {b t : List Nat} {x c : Nat} (h : b.drop c = x :: t) :
    b.drop (c + 1) = t := by
  have h2 : (b.drop c).drop 1 = b.drop (c + 1) := List.drop_drop 1 c b
  rw [h] at h2
  simpa using h2.symm

theorem drop_add_of_drop_append {b u w : List Nat} {c : Nat} (h : b.drop c = u ++ w) :
    b.drop (c + u.length) = w := by
  have h2 : (b.drop c).drop u.length = b.drop (c + u.length) := List.drop_drop u.length c b
  rw [h, List.drop_left] at h2
  exact h2.symm

theorem lt_length_of_drop_cons {b t : List Nat} {x c : Nat} (h : b.drop c = x :: t) :
    c < b.length := by
  by_contra hc
  rw [List.drop_eq_nil_of_le (by omega)] at h
  exact List.noConfusion h

theorem length_drop_eq {b u : List Nat} {c : Nat} (h : b.drop c = u) (hc : c ≤ b.length) :
    u.length = b.length - c := by
  rw [← h, List.length_drop]

/-! ## Arithmetic facts about `wrap64`, `foldW`, `natFold` -/

theorem wrap64_eq_self {x : Int} (h1 : -(2 ^ 63) ≤ x) (h2 : x < 2 ^ 63) : wrap64 x = x := by
  unfold wrap64
  rw [Int.emod_eq_of_lt (by omega) (by omega)]
  omega

theorem wrap64_range (x : Int) : -(2 ^ 63) ≤ wrap64 x ∧ wrap64 x < 2 ^ 63 := by
  unfold wrap64
  have h1 : 0 ≤ (x + 2 ^ 63) % 2 ^ 64 :=
    Int.emod_nonneg (x + 2 ^ 63) (by norm_num)
  have h2 : (x + 2 ^ 63) % 2 ^ 64 < 2 ^ 64 :=
    Int.emod_lt_of_pos (x + 2 ^ 63) (by norm_num)
  omega

theorem natFold_seed_le : ∀ (ds : List Nat) (a : Nat), a ≤ natFold a ds := by
  intro ds
  induction ds with
  | nil => intro a; exact Nat.le_refl a
  | cons d ds ih =>
    intro a
    have h1 : a ≤ a * 10 + (d - 48) := by omega
    exact h1.trans (ih (a * 10 + (d - 48)))

theorem natFold_cons (a d : Nat) (ds : List Nat) :
    natFold a (d :: ds) = natFold (a * 10 + (d - 48)) ds := rfl

theorem foldW_cons (a : Int) (d : Nat) (ds : List Nat) :
    foldW a (d :: ds) = foldW (wrap64 (a * 10 + ((d - 48 : Nat) : Int))) ds := rfl

theorem foldW_eq_natFold : ∀ (ds : List Nat) (a : Nat), natFold a ds < 2 ^ 63 →
    foldW (a : Int) ds = ((natFold a ds : Nat) : Int) := by
  intro ds
  induction ds with
  | nil => intro a h; rfl
  | cons d ds ih =>
    intro a h
    have hstep : a * 10 + (d - 48) ≤ natFold (a * 10 + (d - 48)) ds :=
      natFold_seed_le ds (a * 10 + (d - 48))
    rw [natFold_cons] at h
    have hlt : a * 10 + (d - 48) < 2 ^ 63 := by omega
    have hcast : (a : Int) * 10 + ((d - 48 : Nat) : Int) = ((a * 10 + (d - 48) : Nat) : Int) := by
      push_cast
      ring
    rw [foldW_cons, hcast, wrap64_eq_self
      (le_trans (by norm_num) (Int.natCast_nonneg _)) (by exact_mod_cast hlt)]
    rw [natFold_cons]
    exact ih (a * 10 + (d - 48)) h

theorem foldW_range : ∀ (ds : List Nat) (a : Int), -(2 ^ 63) ≤ a → a < 2 ^ 63 →
    -(2 ^ 63) ≤ foldW a ds ∧ foldW a ds < 2 ^ 63 := by
  intro ds
  induction ds with
  | nil => intro a h1 h2; exact ⟨h1, h2⟩
  | cons d ds ih =>
    intro a h1 h2
    rw [foldW_cons]
    have h3 := wrap64_range (a * 10 + ((d - 48 : Nat) : Int))
    exact ih _ h3.1 h3.2

theorem wrap64_congr {x y : Int} (h : x % 2 ^ 64 = y % 2 ^ 64) : wrap64 x = wrap64 y := by
  unfold wrap64
  have hp : (2 : Int) ^ 64 = 18446744073709551616 := by norm_num
  rw [hp] at h ⊢
  omega

theorem wrap64_mod_self (x : Int) : wrap64 x % 2 ^ 64 = x % 2 ^ 64 := by
  unfold wrap64
  have hp : (2 : Int) ^ 64 = 18446744073709551616 := by norm_num
  rw [hp]
  omega

theorem foldN_cons (a : Int) (d : Nat) (ds : List Nat) :
    foldN a (d :: ds) = foldN (a * 10 + ((d - 48 : Nat) : Int)) ds := rfl

/-- Wrapping at every accumulation step is the same as wrapping once at the
end. -/
theorem foldW_eq_wrap_foldN : ∀ (ds : List Nat) (x : Int),
    foldW (wrap64 x) ds = wrap64 (foldN x ds) := by
  intro ds
  induction ds with
  | nil => intro x; rfl
  | cons d ds ih =>
    intro x
    rw [foldW_cons, foldN_cons]
    have hstep : wrap64 (wrap64 x * 10 + ((d - 48 : Nat) : Int)) =
        wrap64 (x * 10 + ((d - 48 : Nat) : Int)) := by
      refine wrap64_congr ?_
      have hm := wrap64_mod_self x
      have hp : (2 : Int) ^ 64 = 18446744073709551616 := by norm_num
      rw [hp] at hm ⊢
      omega
    rw [hstep, ih]

theorem foldN_eq_natFold : ∀ (ds : List Nat) (a : Nat),
    foldN (a : Int) ds = ((natFold a ds : Nat) : Int) := by
  intro ds
  induction ds with
  | nil => intro a; rfl
  | cons d ds ih =>
    intro a
    rw [foldN_cons, natFold_cons]
    have hcast : (a : Int) * 10 + ((d - 48 : Nat) : Int) = ((a * 10 + (d - 48) : Nat) : Int) := by
      push_cast
      ring
    rw [hcast]
    exact ih (a * 10 + (d - 48))

/-- The digit accumulation of `read_num`, as a single wrap of the exact
value. -/
theorem foldW_zero : ∀ ds : List Nat, foldW 0 ds = wrap64 ((natFold 0 ds : Nat) : Int) := by
  intro ds
  have h0 : (0 : Int) = wrap64 0 := by decide
  rw [h0, foldW_eq_wrap_foldN]
  rw [show foldN 0 ds = foldN ((0 : Nat) : Int) ds from rfl, foldN_eq_natFold]

/-! ## The digit loop computes `foldW` -/

theorem digitsLoop_spec : ∀ (ds : List Nat) (fuel : Nat) (b : List Nat) (c : Nat) (acc : Int)
    (rest : List Nat),
    b.drop c = ds ++ rest →
    (∀ d ∈ ds, isDigitB d = true) →
    (∀ x, rest.head? = some x → isDigitB x = false) →
    ds.length ≤ fuel →
    digitsLoop fuel b c acc = (foldW acc ds, c + ds.length) := by
  intro ds
  induction ds with
  | nil =>
    intro fuel b c acc rest hdrop hds hrest hfuel
    match fuel with
    | 0 => simp [digitsLoop, foldW]
    | fuel + 1 =>
      rw [List.nil_append] at hdrop
      have hpeek : peek b c = rest.head? := by rw [peek_eq_head_drop, hdrop]
      match hx : rest.head? with
      | none =>
        unfold digitsLoop
        rw [hpeek, hx]
        simp [foldW]
      | some x =>
        unfold digitsLoop
        rw [hpeek, hx]
        simp [foldW, hrest x hx]
  | cons d ds ih =>
    intro fuel b c acc rest hdrop hds hrest hfuel
    match fuel with
    | fuel + 1 =>
      rw [List.cons_append] at hdrop
      have hd : isDigitB d = true := hds d (List.mem_cons_self d ds)
      have step : digitsLoop (fuel + 1) b c acc =
          digitsLoop fuel b (c + 1) (wrap64 (acc * 10 + ((d - 48 : Nat) : Int))) := by
        conv_lhs => rw [digitsLoop, peek_of_drop_cons hdrop]
        simp [hd]
      rw [step, ih fuel b (c + 1) _ rest (drop_succ_of_drop_cons hdrop)
        (fun x hx => hds x (List.mem_cons_of_mem d hx)) hrest (by simpa using hfuel)]
      rw [foldW_cons]
      simp [Nat.add_comm, Nat.add_assoc, Nat.add_left_comm]

/-! ## Decimal rendering: digits, value, leading digit -/

theorem toDecimalAux_append : ∀ (fuel n : Nat) (acc : List Nat), n < 10 ^ fuel →
    toDecimalAux fuel n acc = toDecimalAux fuel n [] ++ acc := by
  intro fuel
  induction fuel with
  | zero => intro n acc h; interval_cases n; rfl
  | succ fuel ih =>
    intro n acc h
    unfold toDecimalAux
    by_cases hn : n < 10
    · simp [hn]
    · simp only [if_neg hn]
      have hdiv : n / 10 < 10 ^ fuel := by
        rw [Nat.div_lt_iff_lt_mul (by norm_num)]
        calc n < 10 ^ (fuel + 1) := h
        _ = 10 ^ fuel * 10 := by ring
      rw [ih (n / 10) ((48 + n % 10) :: acc) hdiv, ih (n / 10) [48 + n % 10] hdiv,
        List.append_assoc]
      rfl

theorem toDecimalAux_digits : ∀ (fuel n : Nat) (acc : List Nat),
    (∀ d ∈ acc, isDigitB d = true) → n < 10 ^ fuel →
    ∀ d ∈ toDecimalAux fuel n acc, isDigitB d = true := by
  intro fuel
  induction fuel with
  | zero => intro n acc hacc h; interval_cases n; exact hacc
  | succ fuel ih =>
    intro n acc hacc h
    unfold toDecimalAux
    by_cases hn : n < 10
    · simp only [if_pos hn]
      intro d hd
      rcases List.mem_cons.mp hd with h1 | h2
      · subst h1
        simp only [isDigitB, Bool.and_eq_true, decide_eq_true_eq]
        omega
      · exact hacc d h2
    · simp only [if_neg hn]
      have hdiv : n / 10 < 10 ^ fuel := by
        rw [Nat.div_lt_iff_lt_mul (by norm_num)]
        calc n < 10 ^ (fuel + 1) := h
        _ = 10 ^ fuel * 10 := by ring
      refine ih (n / 10) ((48 + n % 10) :: acc) ?_ hdiv
      intro d hd
      rcases List.mem_cons.mp hd with h1 | h2
      · subst h1
        simp only [isDigitB, Bool.and_eq_true, decide_eq_true_eq]
        have hm : n % 10 < 10 := Nat.mod_lt n (by norm_num)
        omega
      · exact hacc d h2

theorem toDecimalAux_natFold : ∀ (fuel n : Nat), n < 10 ^ fuel →
    natFold 0 (toDecimalAux fuel n []) = n := by
  intro fuel
  induction fuel with
  | zero => intro n h; interval_cases n; rfl
  | succ fuel ih =>
    intro n h
    unfold toDecimalAux
    by_cases hn : n < 10
    · simp only [if_pos hn]
      simp [natFold]
    · simp only [if_neg hn]
      have hdiv : n / 10 < 10 ^ fuel := by
        rw [Nat.div_lt_iff_lt_mul (by norm_num)]
        calc n < 10 ^ (fuel + 1) := h
        _ = 10 ^ fuel * 10 := by ring
      rw [toDecimalAux_append fuel (n / 10) [48 + n % 10] hdiv]
      unfold natFold
      rw [List.foldl_append]
      have hv := ih (n / 10) hdiv
      unfold natFold at hv
      rw [hv]
      simp only [List.foldl]
      omega

theorem toDecimalAux_head_ne_zero : ∀ (fuel n : Nat) (acc : List Nat), 0 < n → n < 10 ^ fuel →
    ∃ d t, toDecimalAux fuel n acc = d :: t ∧ isDigitB d = true ∧ d ≠ 48 := by
  intro fuel
  induction fuel with
  | zero => intro n acc h1 h2; omega
  | succ fuel ih =>
    intro n acc h1 h2
    unfold toDecimalAux
    by_cases hn : n < 10
    · refine ⟨48 + n, acc, by simp [hn], ?_, by omega⟩
      simp only [isDigitB, Bool.and_eq_true, decide_eq_true_eq]
      omega
    · simp only [if_neg hn]
      have hdiv : n / 10 < 10 ^ fuel := by
        rw [Nat.div_lt_iff_lt_mul (by norm_num)]
        calc n < 10 ^ (fuel + 1) := h2
        _ = 10 ^ fuel * 10 := by ring
      exact ih (n / 10) _ (by omega) hdiv

theorem n_lt_ten_pow (n : Nat) : n < 10 ^ (n + 1) :=
  lt_of_lt_of_le (Nat.lt_pow_self (by norm_num) n)
    (Nat.pow_le_pow_right (by norm_num) (by omega))

theorem toDecimal_digits (n : Nat) : ∀ d ∈ toDecimal n, isDigitB d = true :=
  toDecimalAux_digits (n + 1) n [] (by intro d hd; cases hd) (n_lt_ten_pow n)

theorem toDecimal_natFold (n : Nat) : natFold 0 (toDecimal n) = n :=
  toDecimalAux_natFold (n + 1) n (n_lt_ten_pow n)

theorem toDecimal_head : ∀ n : Nat, ∃ d t, toDecimal n = d :: t ∧ isDigitB d = true := by
  intro n
  by_cases h : 0 < n
  · obtain ⟨d, t, h1, h2, _⟩ := toDecimalAux_head_ne_zero (n + 1) n [] h (n_lt_ten_pow n)
    exact ⟨d, t, h1, h2⟩
  · have : n = 0 := by omega
    subst this
    exact ⟨48, [], rfl, rfl⟩

theorem toDecimal_head_ne_zero {n : Nat} (h : 0 < n) :
    ∃ d t, toDecimal n = d :: t ∧ isDigitB d = true ∧ d ≠ 48 :=
  toDecimalAux_head_ne_zero (n + 1) n [] h (n_lt_ten_pow n)

/-! ## `read_num` on digit prefixes and on `encode_num` output -/

theorem digit_ne_minus {d : Nat} (hd : isDigitB d = true) : d ≠ minusB := by
  simp only [isDigitB, Bool.and_eq_true, decide_eq_true_eq] at hd
  simp only [minusB]
  omega

theorem read_num_digits {b : List Nat} {c : Nat} {ds rest : List Nat}
    (hdrop : b.drop c = ds ++ rest)
    (hne : ds ≠ [])
    (hds : ∀ d ∈ ds, isDigitB d = true)
    (hrest : ∀ x, rest.head? = some x → isDigitB x = false) :
    read_num b c = (.ok (foldW 0 ds), c + ds.length) := by
  match ds, hne with
  | d :: ds', _ =>
    have hdrop' : b.drop c = d :: (ds' ++ rest) := by rw [← List.cons_append]; exact hdrop
    have hpeek : peek b c = some d := peek_of_drop_cons hdrop'
    have hd : isDigitB d = true := hds d (List.mem_cons_self _ _)
    have hneg : (decide (peek b c = some minusB)) = false := by
      simp [hpeek, digit_ne_minus hd]
    have hc : c < b.length := lt_length_of_drop_cons hdrop'
    have hlen : (d :: ds').length ≤ b.length := by
      have h1 := length_drop_eq hdrop (le_of_lt hc)
      rw [List.length_append] at h1
      omega
    have hloop := digitsLoop_spec (d :: ds') b.length b c 0 rest hdrop hds hrest hlen
    have hrange := foldW_range (d :: ds') 0 (by norm_num) (by norm_num)
    unfold read_num
    rw [hneg]
    simp only [Bool.false_eq_true, if_false, hpeek, hd, Bool.true_eq_false, Bool.false_and,
      hloop, mul_one]
    rw [wrap64_eq_self hrange.1 hrange.2]

theorem read_num_minus_digits {b : List Nat} {c : Nat} {ds rest : List Nat}
    (hdrop : b.drop c = minusB :: (ds ++ rest))
    (hne : ds ≠ [])
    (hds : ∀ d ∈ ds, isDigitB d = true)
    (hhead : ∀ t, ds.head? = some t → t ≠ zeroB)
    (hrest : ∀ x, rest.head? = some x → isDigitB x = false) :
    read_num b c = (.ok (wrap64 (-(foldW 0 ds))), c + 1 + ds.length) := by
  match ds, hne with
  | d :: ds', _ =>
    have hpeek : peek b c = some minusB := peek_of_drop_cons hdrop
    have hneg : (decide (peek b c = some minusB)) = true := by simp [hpeek]
    have hdrop1 : b.drop (c + 1) = (d :: ds') ++ rest := drop_succ_of_drop_cons hdrop
    have hdrop1' : b.drop (c + 1) = d :: (ds' ++ rest) := by
      rw [← List.cons_append]; exact hdrop1
    have hpeek1 : peek b (c + 1) = some d := peek_of_drop_cons hdrop1'
    have hd : isDigitB d = true := hds d (List.mem_cons_self _ _)
    have hdz : d ≠ zeroB := hhead d rfl
    have hc : c + 1 < b.length := lt_length_of_drop_cons hdrop1'
    have hlen : (d :: ds').length ≤ b.length := by
      have h1 := length_drop_eq hdrop1 (le_of_lt hc)
      rw [List.length_append] at h1
      omega
    have hloop := digitsLoop_spec (d :: ds') b.length b (c + 1) 0 rest hdrop1 hds hrest hlen
    unfold read_num
    rw [hneg]
    simp only [if_true, hpeek1, hd, Bool.true_eq_false, if_false, Bool.true_and,
      decide_eq_true_eq, if_neg hdz]
    rw [hloop]
    simp [Int.mul_neg_one]

theorem read_num_encode_num {n : Int} (h1 : -(2 ^ 63) ≤ n) (h2 : n < 2 ^ 63)
    {b : List Nat} {c : Nat} {rest : List Nat}
    (hdrop : b.drop c = encode_num n ++ rest)
    (hrest : ∀ x, rest.head? = some x → isDigitB x = false) :
    read_num b c = (.ok n, c + (encode_num n).length) := by
  by_cases hn : n < 0
  · -- negative: a minus sign, then the digits of the magnitude
    have henc : encode_num n = minusB :: toDecimal (-n).toNat := by
      unfold encode_num
      rw [if_pos hn]
    rw [henc] at hdrop ⊢
    have hmpos : 0 < (-n).toNat := by omega
    obtain ⟨d, t, hdt, hddig, hdz⟩ := toDecimal_head_ne_zero hmpos
    have hread := read_num_minus_digits (by simpa using hdrop) (by rw [hdt]; simp)
      (toDecimal_digits (-n).toNat)
      (by intro u hu; rw [hdt] at hu; simp at hu; subst hu; simpa [zeroB] using hdz) hrest
    rw [hread]
    have hval : foldW 0 (toDecimal (-n).toNat) = wrap64 (-n) := by
      rw [foldW_zero, toDecimal_natFold]
      congr 1
      omega
    rw [hval]
    have hres : wrap64 (-wrap64 (-n)) = n := by
      have hc : wrap64 (-wrap64 (-n)) = wrap64 (-(-n)) := by
        refine wrap64_congr ?_
        have hm := wrap64_mod_self (-n)
        have hp : (2 : Int) ^ 64 = 18446744073709551616 := by norm_num
        rw [hp] at hm ⊢
        omega
      rw [hc, neg_neg, wrap64_eq_self h1 h2]
    rw [hres]
    congr 1
    simp only [List.length_cons]
    omega
  · -- non-negative: just the digits
    have henc : encode_num n = toDecimal n.toNat := by
      unfold encode_num
      rw [if_neg hn]
    rw [henc] at hdrop ⊢
    obtain ⟨d, t, hdt, hddig⟩ := toDecimal_head n.toNat
    have hread := read_num_digits hdrop (by rw [hdt]; simp) (toDecimal_digits n.toNat) hrest
    rw [hread]
    have hfw : foldW 0 (toDecimal n.toNat) = n := by
      rw [foldW_zero, toDecimal_natFold]
      have hc : ((n.toNat : Nat) : Int) = n := by omega
      rw [hc, wrap64_eq_self h1 h2]
    rw [hfw]

/-! ## `expect_char`, `parse_str`, `parse_int` on encoded input -/

theorem expect_char_at {b t : List Nat} {x c : Nat} (h : b.drop c = x :: t) :
    expect_char b c x = (.ok x, c + 1) := by
  unfold expect_char advance
  rw [peek_of_drop_cons h]
  simp

theorem not_digit_colon : isDigitB colonB = false := by decide

theorem not_digit_e : isDigitB eB = false := by decide

theorem parse_str_encode {s b : List Nat} {c : Nat} {rest : List Nat}
    (hlen : s.length < 2 ^ 63)
    (hdrop : b.drop c = encode_bytestring s ++ rest) :
    parse_str b c = (.ok s, c + (encode_bytestring s).length) := by
  have hwrap : wrap64 (s.length : Int) = (s.length : Int) :=
    wrap64_eq_self (le_trans (by norm_num) (Int.natCast_nonneg _)) (by exact_mod_cast hlen)
  have henc : encode_bytestring s = encode_num (s.length : Int) ++ (colonB :: s) := by
    unfold encode_bytestring
    rw [hwrap]
  rw [henc] at hdrop ⊢
  rw [List.append_assoc, List.cons_append] at hdrop
  have hrn := read_num_encode_num (n := (s.length : Int))
    (le_trans (by norm_num) (Int.natCast_nonneg _)) (by exact_mod_cast hlen) hdrop
    (by intro x hx; simp at hx; subst hx; exact not_digit_colon)
  have hdrop1 : b.drop (c + (encode_num (s.length : Int)).length) = colonB :: (s ++ rest) :=
    drop_add_of_drop_append hdrop
  have hdrop2 : b.drop (c + (encode_num (s.length : Int)).length + 1) = s ++ rest :=
    drop_succ_of_drop_cons hdrop1
  have hc1 : c + (encode_num (s.length : Int)).length < b.length :=
    lt_length_of_drop_cons hdrop1
  have hstop : c + (encode_num (s.length : Int)).length + 1 + s.length ≤ b.length := by
    have hl := List.length_drop (c + (encode_num (s.length : Int)).length + 1) b
    rw [hdrop2, List.length_append] at hl
    omega
  have hnn : ¬ ((s.length : Int) < 0) := by simp
  have hover : ¬ (c + (encode_num (s.length : Int)).length + 1 + s.length > b.length) := by
    omega
  unfold parse_str
  simp only [hrn, if_neg hnn, expect_char_at hdrop1, Int.toNat_natCast, if_neg hover,
    gt_iff_lt, hdrop2, List.take_left]
  simp only [Prod.mk.injEq, List.length_append, List.length_cons, true_and]
  omega

theorem parse_int_encode {n : Int} (h1 : -(2 ^ 63) ≤ n) (h2 : n < 2 ^ 63)
    {b : List Nat} {c : Nat} {rest : List Nat}
    (hdrop : b.drop c = encode_int n ++ rest) :
    parse_int b c = (.ok n, c + (encode_int n).length) := by
  have hdrop0 : b.drop c = iB :: (encode_num n ++ (eB :: rest)) := by
    unfold encode_int at hdrop
    simpa [List.append_assoc] using hdrop
  have hdrop1 : b.drop (c + 1) = encode_num n ++ (eB :: rest) :=
    drop_succ_of_drop_cons hdrop0
  have hrn := read_num_encode_num h1 h2 hdrop1
    (by intro x hx; simp at hx; subst hx; exact not_digit_e)
  have hdrop2 : b.drop (c + 1 + (encode_num n).length) = eB :: rest :=
    drop_add_of_drop_append hdrop1
  unfold parse_int
  simp only [expect_char_at hdrop0, hrn, expect_char_at hdrop2]
  unfold encode_int
  simp only [Prod.mk.injEq, List.length_cons, List.length_append, List.length_nil, true_and]
  omega

theorem parse_int_digits {b : List Nat} {c : Nat} {ds rest : List Nat}
    (hdrop : b.drop c = iB :: (ds ++ (eB :: rest)))
    (hne : ds ≠ []) (hds : ∀ d ∈ ds, isDigitB d = true) :
    parse_int b c = (.ok (foldW 0 ds), c + ds.length + 2) := by
  have hdrop1 : b.drop (c + 1) = ds ++ (eB :: rest) := drop_succ_of_drop_cons hdrop
  have hrn := read_num_digits hdrop1 hne hds
    (by intro x hx; simp at hx; subst hx; exact not_digit_e)
  have hdrop2 : b.drop (c + 1 + ds.length) = eB :: rest := drop_add_of_drop_append hdrop1
  unfold parse_int
  simp only [expect_char_at hdrop, hrn, expect_char_at hdrop2]
  simp only [Prod.mk.injEq, true_and]
  omega

/-! ## Peek facts -/

theorem peek_some_lt {b : List Nat} {c v : Nat} (h : peek b c = some v) : c < b.length := by
  by_contra hc
  rw [peek_eq_head_drop, List.drop_eq_nil_of_le (by omega)] at h
  exact Option.noConfusion h

theorem peek_none_of_ge {b : List Nat} {c : Nat} (h : b.length ≤ c) : peek b c = none := by
  rw [peek_eq_head_drop, List.drop_eq_nil_of_le h]
  rfl

theorem peek_append {b s : List Nat} {c : Nat} (h : c < b.length) :
    peek (b ++ s) c = peek b c := by
  unfold peek
  exact List.getElem?_append_left h


/-! ## Step equations for `expect_char` and the digit loop -/

theorem expect_char_hit {b : List Nat} {c x : Nat} (hpk : peek b c = some x) :
    expect_char b c x = (.ok x, c + 1) := by
  unfold expect_char advance
  rw [hpk]
  simp

theorem expect_char_miss {b : List Nat} {c x u : Nat} (hpk : peek b c = some u)
    (hu : u ≠ x) : expect_char b c x = (.error (.MissingIdentifier x), c) := by
  unfold expect_char
  rw [hpk]
  simp [hu]

theorem expect_char_none {b : List Nat} {c x : Nat} (hpk : peek b c = none) :
    expect_char b c x = (.error .EndOfFile, c) := by
  unfold expect_char
  rw [hpk]

theorem digitsLoop_step_digit {fuel : Nat} {b : List Nat} {c : Nat} {acc : Int} {v : Nat}
    (hpk : peek b c = some v) (hd : isDigitB v = true) :
    digitsLoop (fuel + 1) b c acc =
      digitsLoop fuel b (c + 1) (wrap64 (acc * 10 + ((v - 48 : Nat) : Int))) := by
  conv_lhs => rw [digitsLoop, hpk]
  simp [hd]

theorem digitsLoop_step_stop {fuel : Nat} {b : List Nat} {c : Nat} {acc : Int} {v : Nat}
    (hpk : peek b c = some v) (hd : isDigitB v = false) :
    digitsLoop (fuel + 1) b c acc = (acc, c) := by
  conv_lhs => rw [digitsLoop, hpk]
  simp [hd]

theorem digitsLoop_step_none {fuel : Nat} {b : List Nat} {c : Nat} {acc : Int}
    (hpk : peek b c = none) : digitsLoop (fuel + 1) b c acc = (acc, c) := by
  conv_lhs => rw [digitsLoop, hpk]

/-! ## Cursor bounds of the primitive parsers -/

theorem expect_char_cases (b : List Nat) (c x : Nat) :
    (expect_char b c x = (.ok x, c + 1) ∧ peek b c = some x ∧ c < b.length) ∨
    (∃ e, expect_char b c x = (.error e, c) ∧
      (e = .EndOfFile ∨ e = .MissingIdentifier x)) := by
  cases hpk : peek b c with
  | none => exact Or.inr ⟨.EndOfFile, expect_char_none hpk, Or.inl rfl⟩
  | some u =>
    by_cases hu : u = x
    · subst hu
      exact Or.inl ⟨expect_char_hit hpk, rfl, peek_some_lt hpk⟩
    · exact Or.inr ⟨.MissingIdentifier x, expect_char_miss hpk hu, Or.inr rfl⟩

theorem expect_char_ok {b : List Nat} {c x : Nat} {v : Nat} {c' : Nat}
    (h : expect_char b c x = (.ok v, c')) :
    v = x ∧ c' = c + 1 ∧ peek b c = some x ∧ c < b.length := by
  rcases expect_char_cases b c x with ⟨h1, h2, h3⟩ | ⟨e, h1, _⟩
  · rw [h1] at h
    simp only [Prod.mk.injEq, Except.ok.injEq] at h
    exact ⟨h.1.symm, h.2.symm, h2, h3⟩
  · rw [h1] at h
    simp at h

theorem expect_char_err {b : List Nat} {c x : Nat} {e : DecodingError} {c' : Nat}
    (h : expect_char b c x = (.error e, c')) : c' = c := by
  rcases expect_char_cases b c x with ⟨h1, h2, h3⟩ | ⟨e', h1, _⟩
  · rw [h1] at h
    simp at h
  · rw [h1] at h
    simp only [Prod.mk.injEq, Except.error.injEq] at h
    exact h.2.symm

theorem digitsLoop_le : ∀ (fuel : Nat) (b : List Nat) (c : Nat) (acc : Int),
    c ≤ (digitsLoop fuel b c acc).2 ∧
      (c ≤ b.length → (digitsLoop fuel b c acc).2 ≤ b.length) := by
  intro fuel
  induction fuel with
  | zero => intro b c acc; exact ⟨Nat.le_refl c, fun h => h⟩
  | succ fuel ih =>
    intro b c acc
    cases hpk : peek b c with
    | none => rw [digitsLoop_step_none hpk]; exact ⟨Nat.le_refl c, fun h => h⟩
    | some v =>
      by_cases hv : isDigitB v = true
      · rw [digitsLoop_step_digit hpk hv]
        have hlt : c < b.length := peek_some_lt hpk
        obtain ⟨h1, h2⟩ := ih b (c + 1) (wrap64 (acc * 10 + ((v - 48 : Nat) : Int)))
        exact ⟨by omega, fun _ => h2 (by omega)⟩
      · rw [digitsLoop_step_stop hpk (by simpa using hv)]
        exact ⟨Nat.le_refl c, fun h => h⟩

theorem digitsLoop_progress {fuel : Nat} {b : List Nat} {c : Nat} {acc : Int} {v : Nat}
    (hpk : peek b c = some v) (hd : isDigitB v = true) (hf : 1 ≤ fuel) :
    c + 1 ≤ (digitsLoop fuel b c acc).2 := by
  match fuel, hf with
  | fuel + 1, _ =>
    rw [digitsLoop_step_digit hpk hd]
    exact (digitsLoop_le fuel b (c + 1) _).1

/-- Decompose the digit loop's effect: it consumes exactly the maximal
digit run starting at the cursor. -/
theorem digitsLoop_run (b : List Nat) (c : Nat) (acc : Int) :
    ∃ ds rest, b.drop c = ds ++ rest ∧ (∀ d ∈ ds, isDigitB d = true) ∧
      (∀ x, rest.head? = some x → isDigitB x = false) ∧
      digitsLoop b.length b c acc = (foldW acc ds, c + ds.length) := by
  refine ⟨(b.drop c).takeWhile isDigitB, (b.drop c).dropWhile isDigitB,
    (List.takeWhile_append_dropWhile isDigitB (b.drop c)).symm,
    (fun d hd => List.mem_takeWhile_imp hd), ?_, ?_⟩
  · intro x hx
    have h := List.head?_dropWhile_not isDigitB (b.drop c)
    rw [hx] at h
    simpa using h
  · refine digitsLoop_spec _ _ _ _ _ _
      (List.takeWhile_append_dropWhile isDigitB (b.drop c)).symm
      (fun d hd => List.mem_takeWhile_imp hd) ?_ ?_
    · intro x hx
      have h := List.head?_dropWhile_not isDigitB (b.drop c)
      rw [hx] at h
      simpa using h
    · calc ((b.drop c).takeWhile isDigitB).length ≤ (b.drop c).length :=
        (List.takeWhile_prefix isDigitB).length_le
      _ ≤ b.length := by rw [List.length_drop]; omega


/-! ## Case equations for `read_num` -/

theorem read_num_minus_none {b : List Nat} {c : Nat} (hm : peek b c = some minusB)
    (hpk : peek b (c + 1) = none) : read_num b c = (.error .EndOfFile, c + 1) := by
  unfold read_num
  rw [show (decide (peek b c = some minusB)) = true by simp [hm]]
  simp [hpk]

theorem read_num_minus_nondigit {b : List Nat} {c chr : Nat} (hm : peek b c = some minusB)
    (hpk : peek b (c + 1) = some chr) (hd : isDigitB chr = false) :
    read_num b c = (.error .NotANumber, c + 1) := by
  unfold read_num
  rw [show (decide (peek b c = some minusB)) = true by simp [hm]]
  simp [hpk, hd]

theorem read_num_minus_zero {b : List Nat} {c : Nat} (hm : peek b c = some minusB)
    (hpk : peek b (c + 1) = some zeroB) :
    read_num b c = (.error .NegativeZero, c + 1) := by
  unfold read_num
  rw [show (decide (peek b c = some minusB)) = true by simp [hm]]
  simp [hpk]
  decide

theorem read_num_minus_run {b : List Nat} {c chr : Nat} (hm : peek b c = some minusB)
    (hpk : peek b (c + 1) = some chr) (hd : isDigitB chr = true) (hz : chr ≠ zeroB) :
    read_num b c = (.ok (wrap64 ((digitsLoop b.length b (c + 1) 0).1 * (-1 : Int))),
      (digitsLoop b.length b (c + 1) 0).2) := by
  unfold read_num
  rw [show (decide (peek b c = some minusB)) = true by simp [hm]]
  simp [hpk, hd, hz]

theorem read_num_plain_none {b : List Nat} {c : Nat} (hpk : peek b c = none) :
    read_num b c = (.error .EndOfFile, c) := by
  unfold read_num
  rw [show (decide (peek b c = some minusB)) = false by simp [hpk]]
  simp [hpk]

theorem read_num_plain_nondigit {b : List Nat} {c chr : Nat}
    (hpk : peek b c = some chr) (hchr : chr ≠ minusB) (hd : isDigitB chr = false) :
    read_num b c = (.error .NotANumber, c) := by
  unfold read_num
  rw [show (decide (peek b c = some minusB)) = false by simp [hpk, hchr]]
  simp [hpk, hd]

theorem read_num_plain_run {b : List Nat} {c chr : Nat}
    (hpk : peek b c = some chr) (hchr : chr ≠ minusB) (hd : isDigitB chr = true) :
    read_num b c = (.ok (wrap64 ((digitsLoop b.length b c 0).1)),
      (digitsLoop b.length b c 0).2) := by
  unfold read_num
  rw [show (decide (peek b c = some minusB)) = false by simp [hpk, hchr]]
  simp [hpk, hd]

theorem read_num_bounds {b : List Nat} {c : Nat} {r : Except DecodingError Int} {c' : Nat}
    (h : read_num b c = (r, c')) (hc : c ≤ b.length) :
    c ≤ c' ∧ c' ≤ b.length ∧ (∀ n, r = .ok n → c < c') := by
  by_cases hm : peek b c = some minusB
  · have hcb : c < b.length := peek_some_lt hm
    cases hpk : peek b (c + 1) with
    | none =>
      rw [read_num_minus_none hm hpk] at h
      simp only [Prod.mk.injEq] at h
      refine ⟨by omega, by omega, ?_⟩
      intro n hn
      rw [← h.1] at hn
      exact absurd hn (by simp)
    | some chr =>
      have hsc : c + 1 < b.length := peek_some_lt hpk
      by_cases hd : isDigitB chr = true
      · by_cases hz : chr = zeroB
        · subst hz
          rw [read_num_minus_zero hm hpk] at h
          simp only [Prod.mk.injEq] at h
          refine ⟨by omega, by omega, ?_⟩
          intro n hn
          rw [← h.1] at hn
          exact absurd hn (by simp)
        · rw [read_num_minus_run hm hpk hd hz] at h
          simp only [Prod.mk.injEq] at h
          have hprog : c + 1 + 1 ≤ (digitsLoop b.length b (c + 1) 0).2 :=
            digitsLoop_progress hpk hd (by omega)
          have hle := (digitsLoop_le b.length b (c + 1) 0).2 (by omega)
          exact ⟨by omega, by omega, fun n hn => by omega⟩
      · rw [read_num_minus_nondigit hm hpk (by simpa using hd)] at h
        simp only [Prod.mk.injEq] at h
        refine ⟨by omega, by omega, ?_⟩
        intro n hn
        rw [← h.1] at hn
        exact absurd hn (by simp)
  · cases hpk : peek b c with
    | none =>
      rw [read_num_plain_none hpk] at h
      simp only [Prod.mk.injEq] at h
      refine ⟨by omega, by omega, ?_⟩
      intro n hn
      rw [← h.1] at hn
      exact absurd hn (by simp)
    | some chr =>
      have hcb : c < b.length := peek_some_lt hpk
      have hchr : chr ≠ minusB := by
        intro hcon
        subst hcon
        exact hm hpk
      by_cases hd : isDigitB chr = true
      · rw [read_num_plain_run hpk hchr hd] at h
        simp only [Prod.mk.injEq] at h
        have hprog : c + 1 ≤ (digitsLoop b.length b c 0).2 :=
          digitsLoop_progress hpk hd (by omega)
        have hle := (digitsLoop_le b.length b c 0).2 (by omega)
        exact ⟨by omega, by omega, fun n hn => by omega⟩
      · rw [read_num_plain_nondigit hpk hchr (by simpa using hd)] at h
        simp only [Prod.mk.injEq] at h
        refine ⟨by omega, by omega, ?_⟩
        intro n hn
        rw [← h.1] at hn
        exact absurd hn (by simp)

/-! ## Case equations and bounds for `parse_str`, `parse_int` -/

theorem parse_str_eq_err {b : List Nat} {c : Nat} {e : DecodingError} {c₁ : Nat}
    (h1 : read_num b c = (.error e, c₁)) :
    parse_str b c = (.error .StringWithoutLength, c₁) := by
  unfold parse_str
  rw [h1]

theorem parse_str_eq_ok {b : List Nat} {c : Nat} {len : Int} {c₁ : Nat}
    (h1 : read_num b c = (.ok len, c₁)) :
    parse_str b c =
      (if len < 0 then (.error .NegativeStringLen, c₁)
       else match expect_char b c₁ colonB with
       | (.error e, c₂) => (.error e, c₂)
       | (.ok _, c₂) =>
         if c₂ + len.toNat > b.length then (.error .EndOfFile, b.length)
         else (.ok ((b.drop c₂).take len.toNat), c₂ + len.toNat)) := by
  unfold parse_str
  rw [h1]

theorem parse_str_bounds {b : List Nat} {c : Nat} {r : Except DecodingError (List Nat)}
    {c' : Nat} (h : parse_str b c = (r, c')) (hc : c ≤ b.length) :
    c ≤ c' ∧ c' ≤ b.length ∧ (∀ v, r = .ok v → c < c') := by
  rcases h1 : read_num b c with ⟨e₁ | len, c₁⟩
  · rw [parse_str_eq_err h1] at h
    obtain ⟨hr1, hr2, _⟩ := read_num_bounds h1 hc
    simp only [Prod.mk.injEq] at h
    refine ⟨by omega, by omega, ?_⟩
    intro v hv
    rw [← h.1] at hv
    exact absurd hv (by simp)
  · obtain ⟨hr1, hr2, hr3⟩ := read_num_bounds h1 hc
    rw [parse_str_eq_ok h1] at h
    by_cases hneg : len < 0
    · rw [if_pos hneg] at h
      simp only [Prod.mk.injEq] at h
      refine ⟨by omega, by omega, ?_⟩
      intro v hv
      rw [← h.1] at hv
      exact absurd hv (by simp)
    · rw [if_neg hneg] at h
      rcases hE : expect_char b c₁ colonB with ⟨e₂ | v₂, c₂⟩
      · rw [hE] at h
        have hc₂ := expect_char_err hE
        simp at h
        refine ⟨by omega, by omega, ?_⟩
        intro v hv
        rw [← h.1] at hv
        exact absurd hv (by simp)
      · rw [hE] at h
        obtain ⟨_, hc₂, _, hc₁lt⟩ := expect_char_ok hE
        by_cases hover : c₂ + len.toNat > b.length
        · simp only [if_pos hover] at h
          simp at h
          refine ⟨by omega, by omega, ?_⟩
          intro v hv
          rw [← h.1] at hv
          exact absurd hv (by simp)
        · simp only [if_neg hover] at h
          simp at h
          refine ⟨by omega, by omega, ?_⟩
          intro v hv
          omega

theorem parse_int_eq_err1 {b : List Nat} {c : Nat} {e : DecodingError} {c₁ : Nat}
    (h1 : expect_char b c iB = (.error e, c₁)) :
    parse_int b c = (.error e, c₁) := by
  unfold parse_int
  rw [h1]

theorem parse_int_eq_ok1 {b : List Nat} {c v c₁ : Nat}
    (h1 : expect_char b c iB = (.ok v, c₁)) :
    parse_int b c =
      (match read_num b c₁ with
       | (.error e, c') => (.error e, c')
       | (.ok i, c₂) =>
         match expect_char b c₂ eB with
         | (.error e, c') => (.error e, c')
         | (.ok _, c₃) => (.ok i, c₃)) := by
  unfold parse_int
  rw [h1]

theorem parse_int_eq_ok2 {b : List Nat} {c v c₁ : Nat} {i : Int} {c₂ : Nat}
    (h1 : expect_char b c iB = (.ok v, c₁)) (h2 : read_num b c₁ = (.ok i, c₂)) :
    parse_int b c =
      (match expect_char b c₂ eB with
       | (.error e, c') => (.error e, c')
       | (.ok _, c₃) => (.ok i, c₃)) := by
  unfold parse_int
  simp only [h1, h2]

theorem parse_int_bounds {b : List Nat} {c : Nat} {r : Except DecodingError Int} {c' : Nat}
    (h : parse_int b c = (r, c')) (hc : c ≤ b.length) :
    c ≤ c' ∧ c' ≤ b.length ∧ (∀ n, r = .ok n → c < c') := by
  rcases h1 : expect_char b c iB with ⟨e₁ | v₁, c₁⟩
  · rw [parse_int_eq_err1 h1] at h
    have := expect_char_err h1
    simp only [Prod.mk.injEq] at h
    refine ⟨by omega, by omega, ?_⟩
    intro n hn
    rw [← h.1] at hn
    exact absurd hn (by simp)
  · obtain ⟨_, hc₁, _, hclt⟩ := expect_char_ok h1
    rcases h2 : read_num b c₁ with ⟨e₂ | n₂, c₂⟩
    · obtain ⟨hr1, hr2, _⟩ := read_num_bounds h2 (by omega)
      rw [parse_int_eq_ok1 h1, h2] at h
      simp at h
      refine ⟨by omega, by omega, ?_⟩
      intro n hn
      rw [← h.1] at hn
      exact absurd hn (by simp)
    · obtain ⟨hr1, hr2, hr3⟩ := read_num_bounds h2 (by omega)
      have hprog := hr3 n₂ rfl
      rw [parse_int_eq_ok2 h1 h2] at h
      rcases h3 : expect_char b c₂ eB with ⟨e₃ | v₃, c₃⟩
      · have := expect_char_err h3
        rw [h3] at h
        simp at h
        refine ⟨by omega, by omega, ?_⟩
        intro n hn
        rw [← h.1] at hn
        exact absurd hn (by simp)
      · obtain ⟨_, hc₃, _, hc₂lt⟩ := expect_char_ok h3
        rw [h3] at h
        simp at h
        refine ⟨by omega, by omega, ?_⟩
        intro n hn
        omega

/-! ## Case equations for the element loops and the dispatcher -/

theorem parse_list_loop_eq_none {pt} {b : List Nat} {c g : Nat} {acc : List BEncodingType}
    (hpk : peek b c = none) :
    parse_list_loop pt (g + 1) b c acc = some (.error .EndOfFile, c) := by
  conv_lhs => rw [parse_list_loop, hpk]

theorem parse_list_loop_eq_e {pt} {b : List Nat} {c g : Nat} {acc : List BEncodingType}
    (hpk : peek b c = some eB) :
    parse_list_loop pt (g + 1) b c acc = some (.ok acc, c + 1) := by
  conv_lhs => rw [parse_list_loop, hpk]
  simp

theorem parse_list_loop_eq_cont {pt} {b : List Nat} {c g x : Nat} {acc : List BEncodingType}
    (hpk : peek b c = some x) (hx : x ≠ eB) :
    parse_list_loop pt (g + 1) b c acc =
      (match pt b c with
       | none => none
       | some (.error e, c') => some (.error e, c')
       | some (.ok v, c') => parse_list_loop pt g b c' (acc ++ [v])) := by
  conv_lhs => rw [parse_list_loop, hpk]
  simp [hx]

theorem parse_list_loop_eq_elem_err {pt} {b : List Nat} {c g x : Nat}
    {acc : List BEncodingType} {e : DecodingError} {c₁ : Nat}
    (hpk : peek b c = some x) (hx : x ≠ eB) (hel : pt b c = some (.error e, c₁)) :
    parse_list_loop pt (g + 1) b c acc = some (.error e, c₁) := by
  rw [parse_list_loop_eq_cont hpk hx, hel]

theorem parse_list_loop_eq_elem_none {pt} {b : List Nat} {c g x : Nat}
    {acc : List BEncodingType}
    (hpk : peek b c = some x) (hx : x ≠ eB) (hel : pt b c = none) :
    parse_list_loop pt (g + 1) b c acc = none := by
  rw [parse_list_loop_eq_cont hpk hx, hel]

theorem parse_list_loop_eq_step {pt} {b : List Nat} {c g x : Nat}
    {acc : List BEncodingType} {v₀ : BEncodingType} {c₁ : Nat}
    (hpk : peek b c = some x) (hx : x ≠ eB) (hel : pt b c = some (.ok v₀, c₁)) :
    parse_list_loop pt (g + 1) b c acc = parse_list_loop pt g b c₁ (acc ++ [v₀]) := by
  rw [parse_list_loop_eq_cont hpk hx, hel]

theorem parse_dict_loop_eq_none {pt} {b : List Nat} {c g : Nat}
    {acc : List (List Nat × BEncodingType)} (hpk : peek b c = none) :
    parse_dict_loop pt (g + 1) b c acc = some (.error .EndOfFile, c) := by
  conv_lhs => rw [parse_dict_loop, hpk]

theorem parse_dict_loop_eq_e {pt} {b : List Nat} {c g : Nat}
    {acc : List (List Nat × BEncodingType)} (hpk : peek b c = some eB) :
    parse_dict_loop pt (g + 1) b c acc = some (.ok acc, c + 1) := by
  conv_lhs => rw [parse_dict_loop, hpk]
  simp

theorem parse_dict_loop_eq_cont {pt} {b : List Nat} {c g x : Nat}
    {acc : List (List Nat × BEncodingType)}
    (hpk : peek b c = some x) (hx : x ≠ eB) :
    parse_dict_loop pt (g + 1) b c acc =
      (match parse_str b c with
       | (.error e, c') => some (.error e, c')
       | (.ok key, c₁) =>
         match pt b c₁ with
         | none => none
         | some (.error _, c') => some (.error (.KeyWithoutValue key), c')
         | some (.ok v, c₂) => parse_dict_loop pt g b c₂ (lhmInsert acc key v)) := by
  conv_lhs => rw [parse_dict_loop, hpk]
  simp [hx]

theorem parse_dict_loop_eq_key_err {pt} {b : List Nat} {c g x : Nat}
    {acc : List (List Nat × BEncodingType)} {e : DecodingError} {c₁ : Nat}
    (hpk : peek b c = some x) (hx : x ≠ eB) (hks : parse_str b c = (.error e, c₁)) :
    parse_dict_loop pt (g + 1) b c acc = some (.error e, c₁) := by
  rw [parse_dict_loop_eq_cont hpk hx, hks]

theorem parse_dict_loop_eq_val_cont {pt} {b : List Nat} {c g x : Nat}
    {acc : List (List Nat × BEncodingType)} {key : List Nat} {c₁ : Nat}
    (hpk : peek b c = some x) (hx : x ≠ eB) (hks : parse_str b c = (.ok key, c₁)) :
    parse_dict_loop pt (g + 1) b c acc =
      (match pt b c₁ with
       | none => none
       | some (.error _, c') => some (.error (.KeyWithoutValue key), c')
       | some (.ok v, c₂) => parse_dict_loop pt g b c₂ (lhmInsert acc key v)) := by
  rw [parse_dict_loop_eq_cont hpk hx, hks]

theorem parse_dict_loop_eq_val_err {pt} {b : List Nat} {c g x : Nat}
    {acc : List (List Nat × BEncodingType)} {key : List Nat} {c₁ : Nat}
    {e : DecodingError} {c₂ : Nat}
    (hpk : peek b c = some x) (hx : x ≠ eB) (hks : parse_str b c = (.ok key, c₁))
    (hvl : pt b c₁ = some (.error e, c₂)) :
    parse_dict_loop pt (g + 1) b c acc = some (.error (.KeyWithoutValue key), c₂) := by
  rw [parse_dict_loop_eq_val_cont hpk hx hks, hvl]

theorem parse_dict_loop_eq_val_none {pt} {b : List Nat} {c g x : Nat}
    {acc : List (List Nat × BEncodingType)} {key : List Nat} {c₁ : Nat}
    (hpk : peek b c = some x) (hx : x ≠ eB) (hks : parse_str b c = (.ok key, c₁))
    (hvl : pt b c₁ = none) :
    parse_dict_loop pt (g + 1) b c acc = none := by
  rw [parse_dict_loop_eq_val_cont hpk hx hks, hvl]

theorem parse_dict_loop_eq_step {pt} {b : List Nat} {c g x : Nat}
    {acc : List (List Nat × BEncodingType)} {key : List Nat} {c₁ : Nat}
    {v : BEncodingType} {c₂ : Nat}
    (hpk : peek b c = some x) (hx : x ≠ eB) (hks : parse_str b c = (.ok key, c₁))
    (hvl : pt b c₁ = some (.ok v, c₂)) :
    parse_dict_loop pt (g + 1) b c acc =
      parse_dict_loop pt g b c₂ (lhmInsert acc key v) := by
  rw [parse_dict_loop_eq_val_cont hpk hx hks, hvl]

theorem parse_list'_eq_ok {pt} {g : Nat} {b : List Nat} {c v c₁ : Nat}
    (hE : expect_char b c lB = (.ok v, c₁)) :
    parse_list' pt g b c = parse_list_loop pt g b c₁ [] := by
  unfold parse_list'
  rw [hE]

theorem parse_list'_eq_err {pt} {g : Nat} {b : List Nat} {c : Nat} {e : DecodingError}
    {c₁ : Nat} (hE : expect_char b c lB = (.error e, c₁)) :
    parse_list' pt g b c = some (.error e, c₁) := by
  unfold parse_list'
  rw [hE]

theorem parse_dict'_eq_ok {pt} {g : Nat} {b : List Nat} {c v c₁ : Nat}
    (hE : expect_char b c dB = (.ok v, c₁)) :
    parse_dict' pt g b c = parse_dict_loop pt g b c₁ [] := by
  unfold parse_dict'
  rw [hE]

theorem parse_dict'_eq_err {pt} {g : Nat} {b : List Nat} {c : Nat} {e : DecodingError}
    {c₁ : Nat} (hE : expect_char b c dB = (.error e, c₁)) :
    parse_dict' pt g b c = some (.error e, c₁) := by
  unfold parse_dict'
  rw [hE]

theorem parse_type_eq_none {f : Nat} {b : List Nat} {c : Nat} (hpk : peek b c = none) :
    parse_type (f + 1) b c = some (.error .EndOfFile, c) := by
  conv_lhs => rw [parse_type, hpk]

theorem parse_type_eq_int {f : Nat} {b : List Nat} {c : Nat} (hpk : peek b c = some iB) :
    parse_type (f + 1) b c = some (mapRes BEncodingType.Integer (parse_int b c)) := by
  conv_lhs => rw [parse_type, hpk]
  simp

theorem parse_type_eq_list {f : Nat} {b : List Nat} {c : Nat} (hpk : peek b c = some lB) :
    parse_type (f + 1) b c =
      (parse_list' (parse_type f) f b c).map (mapRes BEncodingType.List) := by
  conv_lhs => rw [parse_type, hpk]
  simp [lB, iB]

theorem parse_type_eq_dict {f : Nat} {b : List Nat} {c : Nat} (hpk : peek b c = some dB) :
    parse_type (f + 1) b c =
      (parse_dict' (parse_type f) f b c).map (mapRes BEncodingType.Dictionary) := by
  conv_lhs => rw [parse_type, hpk]
  simp [dB, iB, lB]

theorem parse_type_eq_str {f : Nat} {b : List Nat} {c x : Nat} (hpk : peek b c = some x)
    (h1 : x ≠ iB) (h2 : x ≠ lB) (h3 : x ≠ dB) :
    parse_type (f + 1) b c = some (mapRes BEncodingType.String (parse_str b c)) := by
  conv_lhs => rw [parse_type, hpk]
  simp [h1, h2, h3]

/-! ## Cursor bounds of the loops and the dispatcher -/

theorem parse_list_loop_bounds
    {pt : List Nat → Nat → Option (Except DecodingError BEncodingType × Nat)} {b : List Nat}
    (hpt : ∀ c₀ r₀ c₁, c₀ ≤ b.length → pt b c₀ = some (r₀, c₁) →
      c₀ ≤ c₁ ∧ c₁ ≤ b.length ∧ (∀ v, r₀ = .ok v → c₀ < c₁)) :
    ∀ (g c : Nat) (acc : List BEncodingType) (r : Except DecodingError (List BEncodingType))
      (c' : Nat), parse_list_loop pt g b c acc = some (r, c') → c ≤ b.length →
      c ≤ c' ∧ c' ≤ b.length ∧ (∀ v, r = .ok v → c < c') := by
  intro g
  induction g with
  | zero => intro c acc r c' h hc; simp [parse_list_loop] at h
  | succ g ih =>
    intro c acc r c' h hc
    cases hpk : peek b c with
    | none =>
      rw [parse_list_loop_eq_none hpk] at h
      simp only [Option.some.injEq, Prod.mk.injEq] at h
      refine ⟨by omega, by omega, ?_⟩
      intro v hv
      rw [← h.1] at hv
      exact absurd hv (by simp)
    | some x =>
      have hcb : c < b.length := peek_some_lt hpk
      by_cases hx : x = eB
      · subst hx
        rw [parse_list_loop_eq_e hpk] at h
        simp only [Option.some.injEq, Prod.mk.injEq] at h
        exact ⟨by omega, by omega, fun v hv => by omega⟩
      · rcases hel : pt b c with _ | ⟨e₀ | v₀, c₁⟩
        · rw [parse_list_loop_eq_elem_none hpk hx hel] at h
          exact absurd h (by simp)
        · obtain ⟨hb1, hb2, _⟩ := hpt c (Except.error e₀) c₁ (by omega) hel
          rw [parse_list_loop_eq_elem_err hpk hx hel] at h
          simp only [Option.some.injEq, Prod.mk.injEq] at h
          refine ⟨by omega, by omega, ?_⟩
          intro v hv
          rw [← h.1] at hv
          exact absurd hv (by simp)
        · obtain ⟨hb1, hb2, hb3⟩ := hpt c (Except.ok v₀) c₁ (by omega) hel
          have hlt := hb3 v₀ rfl
          rw [parse_list_loop_eq_step hpk hx hel] at h
          obtain ⟨hr1, hr2, hr3⟩ := ih c₁ (acc ++ [v₀]) r c' h (by omega)
          exact ⟨by omega, by omega, fun v hv => by omega⟩

theorem parse_dict_loop_bounds
    {pt : List Nat → Nat → Option (Except DecodingError BEncodingType × Nat)} {b : List Nat}
    (hpt : ∀ c₀ r₀ c₁, c₀ ≤ b.length → pt b c₀ = some (r₀, c₁) →
      c₀ ≤ c₁ ∧ c₁ ≤ b.length ∧ (∀ v, r₀ = .ok v → c₀ < c₁)) :
    ∀ (g c : Nat) (acc : List (List Nat × BEncodingType))
      (r : Except DecodingError (List (List Nat × BEncodingType)))
      (c' : Nat), parse_dict_loop pt g b c acc = some (r, c') → c ≤ b.length →
      c ≤ c' ∧ c' ≤ b.length ∧ (∀ v, r = .ok v → c < c') := by
  intro g
  induction g with
  | zero => intro c acc r c' h hc; simp [parse_dict_loop] at h
  | succ g ih =>
    intro c acc r c' h hc
    cases hpk : peek b c with
    | none =>
      rw [parse_dict_loop_eq_none hpk] at h
      simp only [Option.some.injEq, Prod.mk.injEq] at h
      refine ⟨by omega, by omega, ?_⟩
      intro v hv
      rw [← h.1] at hv
      exact absurd hv (by simp)
    | some x =>
      have hcb : c < b.length := peek_some_lt hpk
      by_cases hx : x = eB
      · subst hx
        rw [parse_dict_loop_eq_e hpk] at h
        simp only [Option.some.injEq, Prod.mk.injEq] at h
        exact ⟨by omega, by omega, fun v hv => by omega⟩
      · rcases hks : parse_str b c with ⟨ek | key, c₁⟩
        · obtain ⟨hs1, hs2, _⟩ := parse_str_bounds hks (by omega)
          rw [parse_dict_loop_eq_key_err hpk hx hks] at h
          simp only [Option.some.injEq, Prod.mk.injEq] at h
          refine ⟨by omega, by omega, ?_⟩
          intro v hv
          rw [← h.1] at hv
          exact absurd hv (by simp)
        · obtain ⟨hs1, hs2, hs3⟩ := parse_str_bounds hks (by omega)
          have hklt := hs3 key rfl
          rcases hvl : pt b c₁ with _ | ⟨e₀ | v₀, c₂⟩
          · rw [parse_dict_loop_eq_val_none hpk hx hks hvl] at h
            exact absurd h (by simp)
          · obtain ⟨hb1, hb2, _⟩ := hpt c₁ (Except.error e₀) c₂ (by omega) hvl
            rw [parse_dict_loop_eq_val_err hpk hx hks hvl] at h
            simp only [Option.some.injEq, Prod.mk.injEq] at h
            refine ⟨by omega, by omega, ?_⟩
            intro v hv
            rw [← h.1] at hv
            exact absurd hv (by simp)
          · obtain ⟨hb1, hb2, hb3⟩ := hpt c₁ (Except.ok v₀) c₂ (by omega) hvl
            have hvlt := hb3 v₀ rfl
            rw [parse_dict_loop_eq_step hpk hx hks hvl] at h
            obtain ⟨hr1, hr2, hr3⟩ := ih c₂ (lhmInsert acc key v₀) r c' h (by omega)
            exact ⟨by omega, by omega, fun v hv => by omega⟩

theorem parse_type_bounds : ∀ (f : Nat) (b : List Nat) (c : Nat)
    (r : Except DecodingError BEncodingType) (c' : Nat),
    parse_type f b c = some (r, c') → c ≤ b.length →
    c ≤ c' ∧ c' ≤ b.length ∧ (∀ v, r = .ok v → c < c') := by
  intro f
  induction f with
  | zero => intro b c r c' h hc; simp [parse_type] at h
  | succ f ih =>
    intro b c r c' h hc
    cases hpk : peek b c with
    | none =>
      rw [parse_type_eq_none hpk] at h
      simp only [Option.some.injEq, Prod.mk.injEq] at h
      refine ⟨by omega, by omega, ?_⟩
      intro v hv
      rw [← h.1] at hv
      exact absurd hv (by simp)
    | some x =>
      have hcb : c < b.length := peek_some_lt hpk
      by_cases hxi : x = iB
      · subst hxi
        rw [parse_type_eq_int hpk] at h
        rcases hpi : parse_int b c with ⟨ei | ni, ci⟩
        · rw [hpi] at h
          obtain ⟨hb1, hb2, _⟩ := parse_int_bounds hpi (by omega)
          simp [mapRes] at h
          refine ⟨by omega, by omega, ?_⟩
          intro v hv
          rw [← h.1] at hv
          exact absurd hv (by simp)
        · rw [hpi] at h
          obtain ⟨hb1, hb2, hb3⟩ := parse_int_bounds hpi (by omega)
          have hlt := hb3 ni rfl
          simp [mapRes] at h
          exact ⟨by omega, by omega, fun v hv => by omega⟩
      · by_cases hxl : x = lB
        · subst hxl
          rw [parse_type_eq_list hpk] at h
          rcases hE : expect_char b c lB with ⟨eE | vE, c₁⟩
          · rw [parse_list'_eq_err hE] at h
            have := expect_char_err hE
            simp [mapRes] at h
            refine ⟨by omega, by omega, ?_⟩
            intro v hv
            rw [← h.1] at hv
            exact absurd hv (by simp)
          · obtain ⟨_, hc₁, _, _⟩ := expect_char_ok hE
            rw [parse_list'_eq_ok hE] at h
            rcases hpl : parse_list_loop (parse_type f) f b c₁ [] with _ | ⟨rl, cl⟩
            · rw [hpl] at h
              simp at h
            · obtain ⟨hb1, hb2, hb3⟩ :=
                parse_list_loop_bounds (fun c₀ r₀ c₁ hh hq => ih b c₀ r₀ c₁ hq hh)
                  f c₁ [] rl cl hpl (by omega)
              rw [hpl] at h
              rcases rl with el | vl
              · simp [mapRes] at h
                refine ⟨by omega, by omega, ?_⟩
                intro v hv
                rw [← h.1] at hv
                exact absurd hv (by simp)
              · have hlt := hb3 vl rfl
                simp [mapRes] at h
                exact ⟨by omega, by omega, fun v hv => by omega⟩
        · by_cases hxd : x = dB
          · subst hxd
            rw [parse_type_eq_dict hpk] at h
            rcases hE : expect_char b c dB with ⟨eE | vE, c₁⟩
            · rw [parse_dict'_eq_err hE] at h
              have := expect_char_err hE
              simp [mapRes] at h
              refine ⟨by omega, by omega, ?_⟩
              intro v hv
              rw [← h.1] at hv
              exact absurd hv (by simp)
            · obtain ⟨_, hc₁, _, _⟩ := expect_char_ok hE
              rw [parse_dict'_eq_ok hE] at h
              rcases hpl : parse_dict_loop (parse_type f) f b c₁ [] with _ | ⟨rl, cl⟩
              · rw [hpl] at h
                simp at h
              · obtain ⟨hb1, hb2, hb3⟩ :=
                  parse_dict_loop_bounds (fun c₀ r₀ c₁ hh hq => ih b c₀ r₀ c₁ hq hh)
                    f c₁ [] rl cl hpl (by omega)
                rw [hpl] at h
                rcases rl with el | vl
                · simp [mapRes] at h
                  refine ⟨by omega, by omega, ?_⟩
                  intro v hv
                  rw [← h.1] at hv
                  exact absurd hv (by simp)
                · have hlt := hb3 vl rfl
                  simp [mapRes] at h
                  exact ⟨by omega, by omega, fun v hv => by omega⟩
          · rw [parse_type_eq_str hpk hxi hxl hxd] at h
            rcases hps : parse_str b c with ⟨es | vs, cs⟩
            · rw [hps] at h
              obtain ⟨hb1, hb2, _⟩ := parse_str_bounds hps (by omega)
              simp [mapRes] at h
              refine ⟨by omega, by omega, ?_⟩
              intro v hv
              rw [← h.1] at hv
              exact absurd hv (by simp)
            · rw [hps] at h
              obtain ⟨hb1, hb2, hb3⟩ := parse_str_bounds hps (by omega)
              have hlt := hb3 vs rfl
              simp [mapRes] at h
              exact ⟨by omega, by omega, fun v hv => by omega⟩

/-! ## Fuel sufficiency: the chosen fuel never runs out -/

theorem parse_list_loop_total {f : Nat} {b : List Nat}
    (hpt : ∀ c₀, c₀ ≤ b.length → 2 * (b.length - c₀) < f → parse_type f b c₀ ≠ none) :
    ∀ (g c : Nat) (acc : List BEncodingType), c ≤ b.length → b.length - c < g →
      2 * (b.length - c) < f → parse_list_loop (parse_type f) g b c acc ≠ none := by
  intro g
  induction g with
  | zero => intro c acc hc hg hf; omega
  | succ g ih =>
    intro c acc hc hg hf
    cases hpk : peek b c with
    | none => rw [parse_list_loop_eq_none hpk]; simp
    | some x =>
      have hcb : c < b.length := peek_some_lt hpk
      by_cases hx : x = eB
      · subst hx
        rw [parse_list_loop_eq_e hpk]
        simp
      · rcases hel : parse_type f b c with _ | ⟨e₀ | v₀, c₁⟩
        · exact absurd hel (hpt c (by omega) (by omega))
        · rw [parse_list_loop_eq_elem_err hpk hx hel]
          simp
        · obtain ⟨hb1, hb2, hb3⟩ := parse_type_bounds f b c _ c₁ hel (by omega)
          have hlt := hb3 v₀ rfl
          rw [parse_list_loop_eq_step hpk hx hel]
          exact ih c₁ (acc ++ [v₀]) (by omega) (by omega) (by omega)

theorem parse_dict_loop_total {f : Nat} {b : List Nat}
    (hpt : ∀ c₀, c₀ ≤ b.length → 2 * (b.length - c₀) < f → parse_type f b c₀ ≠ none) :
    ∀ (g c : Nat) (acc : List (List Nat × BEncodingType)), c ≤ b.length →
      b.length - c < g → 2 * (b.length - c) < f →
      parse_dict_loop (parse_type f) g b c acc ≠ none := by
  intro g
  induction g with
  | zero => intro c acc hc hg hf; omega
  | succ g ih =>
    intro c acc hc hg hf
    cases hpk : peek b c with
    | none => rw [parse_dict_loop_eq_none hpk]; simp
    | some x =>
      have hcb : c < b.length := peek_some_lt hpk
      by_cases hx : x = eB
      · subst hx
        rw [parse_dict_loop_eq_e hpk]
        simp
      · rcases hks : parse_str b c with ⟨ek | key, c₁⟩
        · rw [parse_dict_loop_eq_key_err hpk hx hks]
          simp
        · obtain ⟨hs1, hs2, hs3⟩ := parse_str_bounds hks (by omega)
          have hklt := hs3 key rfl
          rcases hvl : parse_type f b c₁ with _ | ⟨e₀ | v₀, c₂⟩
          · exact absurd hvl (hpt c₁ (by omega) (by omega))
          · rw [parse_dict_loop_eq_val_err hpk hx hks hvl]
            simp
          · obtain ⟨hb1, hb2, hb3⟩ := parse_type_bounds f b c₁ _ c₂ hvl (by omega)
            have hvlt := hb3 v₀ rfl
            rw [parse_dict_loop_eq_step hpk hx hks hvl]
            exact ih c₂ (lhmInsert acc key v₀) (by omega) (by omega) (by omega)

theorem parse_type_total : ∀ (f : Nat) (b : List Nat) (c : Nat),
    c ≤ b.length → 2 * (b.length - c) < f → parse_type f b c ≠ none := by
  intro f
  induction f with
  | zero => intro b c hc hf; omega
  | succ f ih =>
    intro b c hc hf
    cases hpk : peek b c with
    | none => rw [parse_type_eq_none hpk]; simp
    | some x =>
      have hcb : c < b.length := peek_some_lt hpk
      by_cases hxi : x = iB
      · subst hxi
        rw [parse_type_eq_int hpk]
        simp
      · by_cases hxl : x = lB
        · subst hxl
          rw [parse_type_eq_list hpk]
          rcases hE : expect_char b c lB with ⟨eE | vE, c₁⟩
          · rw [parse_list'_eq_err hE]
            simp
          · obtain ⟨_, hc₁, _, _⟩ := expect_char_ok hE
            rw [parse_list'_eq_ok hE]
            have hne := parse_list_loop_total (fun c₀ hh hq => ih b c₀ hh hq)
              f c₁ [] (by omega) (by omega) (by omega)
            rcases hpl : parse_list_loop (parse_type f) f b c₁ [] with _ | ⟨rl, cl⟩
            · exact absurd hpl hne
            · simp
        · by_cases hxd : x = dB
          · subst hxd
            rw [parse_type_eq_dict hpk]
            rcases hE : expect_char b c dB with ⟨eE | vE, c₁⟩
            · rw [parse_dict'_eq_err hE]
              simp
            · obtain ⟨_, hc₁, _, _⟩ := expect_char_ok hE
              rw [parse_dict'_eq_ok hE]
              have hne := parse_dict_loop_total (fun c₀ hh hq => ih b c₀ hh hq)
                f c₁ [] (by omega) (by omega) (by omega)
              rcases hpl : parse_dict_loop (parse_type f) f b c₁ [] with _ | ⟨rl, cl⟩
              · exact absurd hpl hne
              · simp
          · rw [parse_type_eq_str hpk hxi hxl hxd]
            simp

/-! ## Monotonicity in the fuel -/

theorem parse_list_loop_mono {f f' : Nat} {b : List Nat}
    (hpt : ∀ c₀ r₀, parse_type f b c₀ = some r₀ → parse_type f' b c₀ = some r₀) :
    ∀ (g g' c : Nat) (acc : List BEncodingType) (r), g ≤ g' →
      parse_list_loop (parse_type f) g b c acc = some r →
      parse_list_loop (parse_type f') g' b c acc = some r := by
  intro g
  induction g with
  | zero => intro g' c acc r hg h; simp [parse_list_loop] at h
  | succ g ih =>
    intro g' c acc r hg h
    obtain ⟨g'', rfl⟩ : ∃ g'', g' = g'' + 1 := ⟨g' - 1, by omega⟩
    cases hpk : peek b c with
    | none =>
      rw [parse_list_loop_eq_none hpk] at h
      rw [parse_list_loop_eq_none hpk]
      exact h
    | some x =>
      by_cases hx : x = eB
      · subst hx
        rw [parse_list_loop_eq_e hpk] at h
        rw [parse_list_loop_eq_e hpk]
        exact h
      · rcases hel : parse_type f b c with _ | ⟨e₀ | v₀, c₁⟩
        · rw [parse_list_loop_eq_elem_none hpk hx hel] at h
          exact absurd h (by simp)
        · have hel' := hpt _ _ hel
          rw [parse_list_loop_eq_elem_err hpk hx hel] at h
          rw [parse_list_loop_eq_elem_err hpk hx hel']
          exact h
        · have hel' := hpt _ _ hel
          rw [parse_list_loop_eq_step hpk hx hel] at h
          rw [parse_list_loop_eq_step hpk hx hel']
          exact ih g'' c₁ (acc ++ [v₀]) r (by omega) h

theorem parse_dict_loop_mono {f f' : Nat} {b : List Nat}
    (hpt : ∀ c₀ r₀, parse_type f b c₀ = some r₀ → parse_type f' b c₀ = some r₀) :
    ∀ (g g' c : Nat) (acc : List (List Nat × BEncodingType)) (r), g ≤ g' →
      parse_dict_loop (parse_type f) g b c acc = some r →
      parse_dict_loop (parse_type f') g' b c acc = some r := by
  intro g
  induction g with
  | zero => intro g' c acc r hg h; simp [parse_dict_loop] at h
  | succ g ih =>
    intro g' c acc r hg h
    obtain ⟨g'', rfl⟩ : ∃ g'', g' = g'' + 1 := ⟨g' - 1, by omega⟩
    cases hpk : peek b c with
    | none =>
      rw [parse_dict_loop_eq_none hpk] at h
      rw [parse_dict_loop_eq_none hpk]
      exact h
    | some x =>
      by_cases hx : x = eB
      · subst hx
        rw [parse_dict_loop_eq_e hpk] at h
        rw [parse_dict_loop_eq_e hpk]
        exact h
      · rcases hks : parse_str b c with ⟨ek | key, c₁⟩
        · rw [parse_dict_loop_eq_key_err hpk hx hks] at h
          rw [parse_dict_loop_eq_key_err hpk hx hks]
          exact h
        · rcases hvl : parse_type f b c₁ with _ | ⟨e₀ | v₀, c₂⟩
          · rw [parse_dict_loop_eq_val_none hpk hx hks hvl] at h
            exact absurd h (by simp)
          · have hvl' := hpt _ _ hvl
            rw [parse_dict_loop_eq_val_err hpk hx hks hvl] at h
            rw [parse_dict_loop_eq_val_err hpk hx hks hvl']
            exact h
          · have hvl' := hpt _ _ hvl
            rw [parse_dict_loop_eq_step hpk hx hks hvl] at h
            rw [parse_dict_loop_eq_step hpk hx hks hvl']
            exact ih g'' c₂ (lhmInsert acc key v₀) r (by omega) h

theorem parse_type_mono : ∀ (f f' : Nat), f ≤ f' → ∀ (b : List Nat) (c : Nat) (r),
    parse_type f b c = some r → parse_type f' b c = some r := by
  intro f
  induction f with
  | zero => intro f' hf b c r h; simp [parse_type] at h
  | succ f ih =>
    intro f' hf b c r h
    obtain ⟨f'', rfl⟩ : ∃ f'', f' = f'' + 1 := ⟨f' - 1, by omega⟩
    have hff : f ≤ f'' := by omega
    cases hpk : peek b c with
    | none =>
      rw [parse_type_eq_none hpk] at h
      rw [parse_type_eq_none hpk]
      exact h
    | some x =>
      by_cases hxi : x = iB
      · subst hxi
        rw [parse_type_eq_int hpk] at h
        rw [parse_type_eq_int hpk]
        exact h
      · by_cases hxl : x = lB
        · subst hxl
          rw [parse_type_eq_list hpk] at h
          rw [parse_type_eq_list hpk]
          rcases hE : expect_char b c lB with ⟨eE | vE, c₁⟩
          · rw [parse_list'_eq_err hE] at h
            rw [parse_list'_eq_err hE]
            exact h
          · rw [parse_list'_eq_ok hE] at h
            rw [parse_list'_eq_ok hE]
            rcases hpl : parse_list_loop (parse_type f) f b c₁ [] with _ | ⟨rl, cl⟩
            · rw [hpl] at h
              exact absurd h (by simp)
            · have hpl' := parse_list_loop_mono (fun c₀ r₀ hq => ih f'' hff b c₀ r₀ hq)
                f f'' c₁ [] (rl, cl) hff hpl
              rw [hpl] at h
              rw [hpl']
              exact h
        · by_cases hxd : x = dB
          · subst hxd
            rw [parse_type_eq_dict hpk] at h
            rw [parse_type_eq_dict hpk]
            rcases hE : expect_char b c dB with ⟨eE | vE, c₁⟩
            · rw [parse_dict'_eq_err hE] at h
              rw [parse_dict'_eq_err hE]
              exact h
            · rw [parse_dict'_eq_ok hE] at h
              rw [parse_dict'_eq_ok hE]
              rcases hpl : parse_dict_loop (parse_type f) f b c₁ [] with _ | ⟨rl, cl⟩
              · rw [hpl] at h
                exact absurd h (by simp)
              · have hpl' := parse_dict_loop_mono (fun c₀ r₀ hq => ih f'' hff b c₀ r₀ hq)
                  f f'' c₁ [] (rl, cl) hff hpl
                rw [hpl] at h
                rw [hpl']
                exact h
          · rw [parse_type_eq_str hpk hxi hxl hxd] at h
            rw [parse_type_eq_str hpk hxi hxl hxd]
            exact h

/-! ## Trailing bytes do not affect a successful parse -/

theorem slice_append {b s : List Nat} {st n : Nat} (h : st + n ≤ b.length) :
    ((b ++ s).drop st).take n = (b.drop st).take n := by
  rw [List.drop_append_of_le_length (by omega)]
  rw [List.take_append_of_le_length (by rw [List.length_drop]; omega)]

theorem read_num_ok_append {b s : List Nat} {c : Nat} {n : Int} {c' : Nat}
    (h : read_num b c = (.ok n, c')) (hlt : c' < b.length) :
    read_num (b ++ s) c = (.ok n, c') := by
  by_cases hm : peek b c = some minusB
  · have hcb : c < b.length := peek_some_lt hm
    have hm' : peek (b ++ s) c = some minusB := by rw [peek_append hcb]; exact hm
    cases hpk : peek b (c + 1) with
    | none =>
      rw [read_num_minus_none hm hpk] at h
      simp at h
    | some chr =>
      have hscb : c + 1 < b.length := peek_some_lt hpk
      have hpk' : peek (b ++ s) (c + 1) = some chr := by rw [peek_append hscb]; exact hpk
      by_cases hd : isDigitB chr = true
      · by_cases hz : chr = zeroB
        · subst hz
          rw [read_num_minus_zero hm hpk] at h
          simp at h
        · rw [read_num_minus_run hm hpk hd hz] at h
          obtain ⟨ds, rest, hdr, hds, hrest, hloop⟩ := digitsLoop_run b (c + 1) 0
          rw [hloop] at h
          simp only [Prod.mk.injEq] at h
          obtain ⟨hn, hc'⟩ := h
          have hlds : (ds ++ rest).length = b.length - (c + 1) :=
            length_drop_eq hdr (by omega)
          rw [List.length_append] at hlds
          have hrest_len : 0 < rest.length := by omega
          obtain ⟨y, t, rfl⟩ : ∃ y t, rest = y :: t := by
            cases rest with
            | nil => simp at hrest_len
            | cons y t => exact ⟨y, t, rfl⟩
          have hdr' : (b ++ s).drop (c + 1) = ds ++ (y :: (t ++ s)) := by
            rw [List.drop_append_of_le_length (by omega), hdr]
            simp
          have hloop' := digitsLoop_spec ds (b ++ s).length (b ++ s) (c + 1) 0 (y :: (t ++ s))
            hdr' hds (by intro u hu; simp at hu; subst hu; exact hrest y rfl)
            (by rw [List.length_append]; omega)
          rw [read_num_minus_run hm' hpk' hd hz, hloop']
          simp only [Prod.mk.injEq]
          exact ⟨hn, hc'⟩
      · rw [read_num_minus_nondigit hm hpk (by simpa using hd)] at h
        simp at h
  · cases hpk : peek b c with
    | none =>
      rw [read_num_plain_none hpk] at h
      simp at h
    | some chr =>
      have hcb : c < b.length := peek_some_lt hpk
      have hchr : chr ≠ minusB := by
        intro hcon
        subst hcon
        exact hm hpk
      have hpk' : peek (b ++ s) c = some chr := by rw [peek_append hcb]; exact hpk
      by_cases hd : isDigitB chr = true
      · rw [read_num_plain_run hpk hchr hd] at h
        obtain ⟨ds, rest, hdr, hds, hrest, hloop⟩ := digitsLoop_run b c 0
        rw [hloop] at h
        simp only [Prod.mk.injEq] at h
        obtain ⟨hn, hc'⟩ := h
        have hlds : (ds ++ rest).length = b.length - c := length_drop_eq hdr (by omega)
        rw [List.length_append] at hlds
        have hrest_len : 0 < rest.length := by omega
        obtain ⟨y, t, rfl⟩ : ∃ y t, rest = y :: t := by
          cases rest with
          | nil => simp at hrest_len
          | cons y t => exact ⟨y, t, rfl⟩
        have hdr' : (b ++ s).drop c = ds ++ (y :: (t ++ s)) := by
          rw [List.drop_append_of_le_length (by omega), hdr]
          simp
        have hloop' := digitsLoop_spec ds (b ++ s).length (b ++ s) c 0 (y :: (t ++ s))
          hdr' hds (by intro u hu; simp at hu; subst hu; exact hrest y rfl)
          (by rw [List.length_append]; omega)
        rw [read_num_plain_run hpk' hchr hd, hloop']
        simp only [Prod.mk.injEq]
        exact ⟨hn, hc'⟩
      · rw [read_num_plain_nondigit hpk hchr (by simpa using hd)] at h
        simp at h

theorem parse_str_ok_append {b : List Nat} (s : List Nat) {c : Nat} {v : List Nat} {c' : Nat}
    (h : parse_str b c = (.ok v, c')) (hc : c ≤ b.length) :
    parse_str (b ++ s) c = (.ok v, c') := by
  rcases h1 : read_num b c with ⟨e₁ | len, c₁⟩
  · rw [parse_str_eq_err h1] at h
    simp at h
  · rw [parse_str_eq_ok h1] at h
    by_cases hneg : len < 0
    · rw [if_pos hneg] at h
      simp at h
    · rw [if_neg hneg] at h
      rcases hE : expect_char b c₁ colonB with ⟨e₂ | v₂, c₂⟩
      · rw [hE] at h
        simp at h
      · rw [hE] at h
        obtain ⟨hv2, hc₂, hpkc₁, hc₁lt⟩ := expect_char_ok hE
        subst hc₂
        by_cases hover : c₁ + 1 + len.toNat > b.length
        · simp only [if_pos hover] at h
          simp at h
        · simp only [if_neg hover] at h
          simp only [Prod.mk.injEq, Except.ok.injEq] at h
          obtain ⟨hv, hc'⟩ := h
          have h1' : read_num (b ++ s) c = (.ok len, c₁) := read_num_ok_append h1 hc₁lt
          have hpkc₁' : peek (b ++ s) c₁ = some colonB := by
            rw [peek_append hc₁lt]
            exact hpkc₁
          have hover' : ¬ (c₁ + 1 + len.toNat > (b ++ s).length) := by
            rw [List.length_append]
            omega
          rw [parse_str_eq_ok h1', if_neg hneg, expect_char_hit hpkc₁']
          simp only [if_neg hover']
          rw [slice_append (by omega)]
          simp only [Prod.mk.injEq, Except.ok.injEq]
          exact ⟨hv, hc'⟩

theorem parse_int_ok_append {b s : List Nat} {c : Nat} {n : Int} {c' : Nat}
    (h : parse_int b c = (.ok n, c')) (hc : c ≤ b.length) :
    parse_int (b ++ s) c = (.ok n, c') := by
  rcases h1 : expect_char b c iB with ⟨e₁ | v₁, c₁⟩
  · rw [parse_int_eq_err1 h1] at h
    simp at h
  · obtain ⟨hv1, hc₁, hpk1, hclt⟩ := expect_char_ok h1
    subst hv1 hc₁
    rcases h2 : read_num b (c + 1) with ⟨e₂ | n₂, c₂⟩
    · rw [parse_int_eq_ok1 h1, h2] at h
      simp at h
    · rw [parse_int_eq_ok2 h1 h2] at h
      rcases h3 : expect_char b c₂ eB with ⟨e₃ | v₃, c₃⟩
      · rw [h3] at h
        simp at h
      · rw [h3] at h
        simp only [Prod.mk.injEq, Except.ok.injEq] at h
        obtain ⟨hn, hc'⟩ := h
        obtain ⟨hv3, hc₃, hpk3, hc₂lt⟩ := expect_char_ok h3
        have h1' : expect_char (b ++ s) c iB = (.ok iB, c + 1) :=
          expect_char_hit (by rw [peek_append hclt]; exact hpk1)
        have h2' : read_num (b ++ s) (c + 1) = (.ok n₂, c₂) :=
          read_num_ok_append h2 hc₂lt
        have h3' : expect_char (b ++ s) c₂ eB = (.ok eB, c₂ + 1) :=
          expect_char_hit (by rw [peek_append hc₂lt]; exact hpk3)
        rw [parse_int_eq_ok2 h1' h2', h3']
        simp only [Prod.mk.injEq, Except.ok.injEq]
        exact ⟨hn, by omega⟩

theorem parse_list_loop_ok_append {f : Nat} {b s : List Nat}
    (hpt : ∀ c₀ v₀ c₁, c₀ ≤ b.length → parse_type f b c₀ = some (.ok v₀, c₁) →
      parse_type f (b ++ s) c₀ = some (.ok v₀, c₁)) :
    ∀ (g c : Nat) (acc l : List BEncodingType) (c' : Nat), c ≤ b.length →
      parse_list_loop (parse_type f) g b c acc = some (.ok l, c') →
      parse_list_loop (parse_type f) g (b ++ s) c acc = some (.ok l, c') := by
  intro g
  induction g with
  | zero => intro c acc l c' hc h; simp [parse_list_loop] at h
  | succ g ih =>
    intro c acc l c' hc h
    cases hpk : peek b c with
    | none =>
      rw [parse_list_loop_eq_none hpk] at h
      simp at h
    | some x =>
      have hcb : c < b.length := peek_some_lt hpk
      have hpk' : peek (b ++ s) c = some x := by rw [peek_append hcb]; exact hpk
      by_cases hx : x = eB
      · subst hx
        rw [parse_list_loop_eq_e hpk] at h
        rw [parse_list_loop_eq_e hpk']
        exact h
      · rcases hel : parse_type f b c with _ | ⟨e₀ | v₀, c₁⟩
        · rw [parse_list_loop_eq_elem_none hpk hx hel] at h
          exact absurd h (by simp)
        · rw [parse_list_loop_eq_elem_err hpk hx hel] at h
          simp at h
        · obtain ⟨hb1, hb2, hb3⟩ := parse_type_bounds f b c _ c₁ hel (by omega)
          have hel' := hpt c v₀ c₁ (by omega) hel
          rw [parse_list_loop_eq_step hpk hx hel] at h
          rw [parse_list_loop_eq_step hpk' hx hel']
          exact ih c₁ (acc ++ [v₀]) l c' (by omega) h

theorem parse_dict_loop_ok_append {f : Nat} {b s : List Nat}
    (hpt : ∀ c₀ v₀ c₁, c₀ ≤ b.length → parse_type f b c₀ = some (.ok v₀, c₁) →
      parse_type f (b ++ s) c₀ = some (.ok v₀, c₁)) :
    ∀ (g c : Nat) (acc l : List (List Nat × BEncodingType)) (c' : Nat), c ≤ b.length →
      parse_dict_loop (parse_type f) g b c acc = some (.ok l, c') →
      parse_dict_loop (parse_type f) g (b ++ s) c acc = some (.ok l, c') := by
  intro g
  induction g with
  | zero => intro c acc l c' hc h; simp [parse_dict_loop] at h
  | succ g ih =>
    intro c acc l c' hc h
    cases hpk : peek b c with
    | none =>
      rw [parse_dict_loop_eq_none hpk] at h
      simp at h
    | some x =>
      have hcb : c < b.length := peek_some_lt hpk
      have hpk' : peek (b ++ s) c = some x := by rw [peek_append hcb]; exact hpk
      by_cases hx : x = eB
      · subst hx
        rw [parse_dict_loop_eq_e hpk] at h
        rw [parse_dict_loop_eq_e hpk']
        exact h
      · rcases hks : parse_str b c with ⟨ek | key, c₁⟩
        · rw [parse_dict_loop_eq_key_err hpk hx hks] at h
          simp at h
        · obtain ⟨hs1, hs2, hs3⟩ := parse_str_bounds hks (by omega)
          have hks' := parse_str_ok_append s hks (by omega)
          rcases hvl : parse_type f b c₁ with _ | ⟨e₀ | v₀, c₂⟩
          · rw [parse_dict_loop_eq_val_none hpk hx hks hvl] at h
            exact absurd h (by simp)
          · rw [parse_dict_loop_eq_val_err hpk hx hks hvl] at h
            simp at h
          · obtain ⟨hb1, hb2, hb3⟩ := parse_type_bounds f b c₁ _ c₂ hvl (by omega)
            have hvl' := hpt c₁ v₀ c₂ (by omega) hvl
            rw [parse_dict_loop_eq_step hpk hx hks hvl] at h
            rw [parse_dict_loop_eq_step hpk' hx hks' hvl']
            exact ih c₂ (lhmInsert acc key v₀) l c' (by omega) h

theorem parse_type_ok_append : ∀ (f : Nat) (b s : List Nat) (c : Nat)
    (v : BEncodingType) (c' : Nat), c ≤ b.length →
    parse_type f b c = some (.ok v, c') →
    parse_type f (b ++ s) c = some (.ok v, c') := by
  intro f
  induction f with
  | zero => intro b s c v c' hc h; simp [parse_type] at h
  | succ f ih =>
    intro b s c v c' hc h
    cases hpk : peek b c with
    | none =>
      rw [parse_type_eq_none hpk] at h
      simp at h
    | some x =>
      have hcb : c < b.length := peek_some_lt hpk
      have hpk' : peek (b ++ s) c = some x := by rw [peek_append hcb]; exact hpk
      by_cases hxi : x = iB
      · subst hxi
        rw [parse_type_eq_int hpk] at h
        rw [parse_type_eq_int hpk']
        rcases hpi : parse_int b c with ⟨ei | ni, ci⟩
        · rw [hpi] at h
          simp [mapRes] at h
        · rw [hpi] at h
          rw [parse_int_ok_append hpi (by omega)]
          exact h
      · by_cases hxl : x = lB
        · subst hxl
          rw [parse_type_eq_list hpk] at h
          rw [parse_type_eq_list hpk']
          rcases hE : expect_char b c lB with ⟨eE | vE, c₁⟩
          · rw [parse_list'_eq_err hE] at h
            simp [mapRes] at h
          · obtain ⟨hvE, hc₁, hpkE, _⟩ := expect_char_ok hE
            subst hvE hc₁
            have hE' : expect_char (b ++ s) c lB = (.ok lB, c + 1) :=
              expect_char_hit hpk'
            rw [parse_list'_eq_ok hE] at h
            rw [parse_list'_eq_ok hE']
            rcases hpl : parse_list_loop (parse_type f) f b (c + 1) [] with _ | ⟨rl, cl⟩
            · rw [hpl] at h
              simp at h
            · rw [hpl] at h
              rcases rl with el | vl
              · simp [mapRes] at h
              · have hpl' := parse_list_loop_ok_append
                  (fun c₀ v₀ c₁ hh hq => ih b s c₀ v₀ c₁ hh hq)
                  f (c + 1) [] vl cl (by omega) hpl
                rw [hpl']
                exact h
        · by_cases hxd : x = dB
          · subst hxd
            rw [parse_type_eq_dict hpk] at h
            rw [parse_type_eq_dict hpk']
            rcases hE : expect_char b c dB with ⟨eE | vE, c₁⟩
            · rw [parse_dict'_eq_err hE] at h
              simp [mapRes] at h
            · obtain ⟨hvE, hc₁, hpkE, _⟩ := expect_char_ok hE
              subst hvE hc₁
              have hE' : expect_char (b ++ s) c dB = (.ok dB, c + 1) :=
                expect_char_hit hpk'
              rw [parse_dict'_eq_ok hE] at h
              rw [parse_dict'_eq_ok hE']
              rcases hpl : parse_dict_loop (parse_type f) f b (c + 1) [] with _ | ⟨rl, cl⟩
              · rw [hpl] at h
                simp at h
              · rw [hpl] at h
                rcases rl with el | vl
                · simp [mapRes] at h
                · have hpl' := parse_dict_loop_ok_append
                    (fun c₀ v₀ c₁ hh hq => ih b s c₀ v₀ c₁ hh hq)
                    f (c + 1) [] vl cl (by omega) hpl
                  rw [hpl']
                  exact h
          · rw [parse_type_eq_str hpk hxi hxl hxd] at h
            rw [parse_type_eq_str hpk' hxi hxl hxd]
            rcases hps : parse_str b c with ⟨es | vs, cs⟩
            · rw [hps] at h
              simp [mapRes] at h
            · rw [hps] at h
              rw [parse_str_ok_append s hps (by omega)]
              exact h

/-! ## Decode-level consequences -/

/-- C9: `decode` is total — with the fuel it supplies, `parse_type` always
returns a result (`Ok` or a `DecodingError`), and the final cursor never
passes the end of the buffer. -/
theorem decode_never_panics (inp : List Nat) :
    ∃ r c, decode inp = some (r, c) ∧ c ≤ inp.length := by
  have hne := parse_type_total (2 * inp.length + 1) inp 0 (by omega) (by omega)
  rcases hd : parse_type (2 * inp.length + 1) inp 0 with _ | ⟨r, c⟩
  · exact absurd hd hne
  · obtain ⟨_, hb2, _⟩ := parse_type_bounds _ inp 0 r c hd (by omega)
    exact ⟨r, c, hd, hb2⟩

/-- C6: trailing bytes after one complete top-level value are never
inspected: appending any suffix leaves a successful decode unchanged. -/
theorem decode_ignores_trailing (b s : List Nat) (v : BEncodingType) (c : Nat)
    (h : decode b = some (.ok v, c)) : decode (b ++ s) = some (.ok v, c) := by
  unfold decode at h ⊢
  have h1 := parse_type_ok_append (2 * b.length + 1) b s 0 v c (by omega) h
  exact parse_type_mono (2 * b.length + 1) (2 * (b ++ s).length + 1)
    (by rw [List.length_append]; omega) (b ++ s) 0 (.ok v, c) h1

/-- C5: an integer production `i-0…` fails with `NegativeZero` at cursor 2:
`i` and `-` consumed, the `0` not consumed. -/
theorem decode_negative_zero_cursor (rest : List Nat) :
    decode (iB :: minusB :: zeroB :: rest) = some (.error .NegativeZero, 2) := by
  unfold decode
  have hpk : peek (iB :: minusB :: zeroB :: rest) 0 = some iB := rfl
  have h1 : expect_char (iB :: minusB :: zeroB :: rest) 0 iB = (.ok iB, 1) :=
    expect_char_hit hpk
  have h2 : read_num (iB :: minusB :: zeroB :: rest) 1 = (.error .NegativeZero, 2) :=
    read_num_minus_zero
      (peek_of_drop_cons (show List.drop 1 (iB :: minusB :: zeroB :: rest) =
        minusB :: (zeroB :: rest) from rfl))
      (peek_of_drop_cons (show List.drop 2 (iB :: minusB :: zeroB :: rest) =
        zeroB :: rest from rfl))
  have h3 : parse_int (iB :: minusB :: zeroB :: rest) 0 = (.error .NegativeZero, 2) := by
    rw [parse_int_eq_ok1 h1, h2]
  rw [parse_type_eq_int hpk, h3]
  rfl

/-! ## Digits are not grammar literals -/

theorem digit_not_special {d : Nat} (hd : isDigitB d = true) :
    d ≠ iB ∧ d ≠ lB ∧ d ≠ dB ∧ d ≠ minusB ∧ d ≠ eB := by
  refine ⟨?_, ?_, ?_, ?_, ?_⟩ <;> (intro hcon; subst hcon; revert hd; decide)

/-- C4: a byte-string production whose declared length exceeds the remaining
buffer fails with `EndOfFile`, the cursor parked at the end of the buffer. -/
theorem string_overrun_end_of_file (ds s : List Nat) (hne : ds ≠ [])
    (hds : ∀ d ∈ ds, isDigitB d = true) (hlen : natFold 0 ds < 2 ^ 63)
    (hover : s.length < natFold 0 ds) :
    decode (ds ++ colonB :: s) =
      some (.error .EndOfFile, (ds ++ colonB :: s).length) := by
  obtain ⟨d, ds', rfl⟩ : ∃ d ds', ds = d :: ds' := by
    cases ds with
    | nil => exact absurd rfl hne
    | cons d ds' => exact ⟨d, ds', rfl⟩
  have hd : isDigitB d = true := hds d (List.mem_cons_self _ _)
  obtain ⟨hdi, hdl, hdd, hdm, hde⟩ := digit_not_special hd
  have hpk : peek ((d :: ds') ++ colonB :: s) 0 = some d :=
    peek_of_drop_cons (by rfl)
  have hrn : read_num ((d :: ds') ++ colonB :: s) 0 =
      (.ok (foldW 0 (d :: ds')), 0 + (d :: ds').length) :=
    read_num_digits (by rfl) (by simp) hds
      (by intro x hx; simp at hx; subst hx; exact not_digit_colon)
  have hfw : foldW 0 (d :: ds') = ((natFold 0 (d :: ds') : Nat) : Int) := by
    rw [foldW_zero, wrap64_eq_self (le_trans (by norm_num) (Int.natCast_nonneg _))
      (by exact_mod_cast hlen)]
  have hE : expect_char ((d :: ds') ++ colonB :: s) (d :: ds').length colonB =
      (.ok colonB, (d :: ds').length + 1) :=
    expect_char_hit (peek_of_drop_cons (List.drop_left (d :: ds') (colonB :: s)))
  have hps : parse_str ((d :: ds') ++ colonB :: s) 0 =
      (.error .EndOfFile, ((d :: ds') ++ colonB :: s).length) := by
    rw [parse_str_eq_ok hrn, hfw]
    rw [if_neg (by simp)]
    rw [Nat.zero_add, hE]
    have hoverb : (d :: ds').length + 1 + ((natFold 0 (d :: ds') : Nat) : Int).toNat >
        ((d :: ds') ++ colonB :: s).length := by
      simp only [Int.toNat_natCast, List.length_append, List.length_cons]
      omega
    simp only [if_pos hoverb]
  unfold decode
  rw [parse_type_eq_str hpk hdi hdl hdd, hps]
  rfl

/-- `NegativeStringLen` can only arise from a successfully parsed, strictly
negative length prefix. -/
theorem parse_str_nsl_only {b : List Nat} {c c₁ : Nat}
    (h : parse_str b c = (.error .NegativeStringLen, c₁)) :
    ∃ n : Int, read_num b c = (.ok n, c₁) ∧ n < 0 := by
  rcases h1 : read_num b c with ⟨e₁ | len, c₁'⟩
  · rw [parse_str_eq_err h1] at h
    simp at h
  · rw [parse_str_eq_ok h1] at h
    by_cases hneg : len < 0
    · rw [if_pos hneg] at h
      simp only [Prod.mk.injEq, Except.error.injEq] at h
      exact ⟨len, by rw [h.2], hneg⟩
    · rw [if_neg hneg] at h
      rcases expect_char_cases b c₁' colonB with ⟨hE, _, _⟩ | ⟨e₂, hE, hsh⟩
      · rw [hE] at h
        by_cases hover : c₁' + 1 + len.toNat > b.length
        · simp only [if_pos hover] at h
          simp at h
        · simp only [if_neg hover] at h
          simp at h
      · rw [hE] at h
        simp at h
        rcases hsh with h2 | h2
        · rw [h2] at h
          simp at h
        · rw [h2] at h
          simp at h

/-- C10: every failure of `read_num` inside a byte-string length prefix —
`NotANumber`, `EndOfFile` or `NegativeZero` — collapses to
`StringWithoutLength`; `NegativeStringLen` arises exactly from a
successfully parsed negative length. -/
theorem string_length_error_collapse :
    (∀ (b : List Nat) (c : Nat) (e : DecodingError) (c₁ : Nat),
      read_num b c = (.error e, c₁) → parse_str b c = (.error .StringWithoutLength, c₁))
    ∧ (∀ (b : List Nat) (c : Nat) (n : Int) (c₁ : Nat),
      read_num b c = (.ok n, c₁) → n < 0 → parse_str b c = (.error .NegativeStringLen, c₁))
    ∧ (∀ (b : List Nat) (c c₁ : Nat), parse_str b c = (.error .NegativeStringLen, c₁) →
      ∃ n : Int, read_num b c = (.ok n, c₁) ∧ n < 0)
    ∧ (∀ (x : Nat) (rest : List Nat), isDigitB x = false → x ≠ iB → x ≠ lB → x ≠ dB →
      x ≠ minusB → decode (x :: rest) = some (.error .StringWithoutLength, 0))
    ∧ (∀ rest : List Nat,
        decode (minusB :: zeroB :: rest) = some (.error .StringWithoutLength, 1))
    ∧ decode [minusB] = some (.error .StringWithoutLength, 1) := by
  refine ⟨?_, ?_, ?_, ?_, ?_, ?_⟩
  · intro b c e c₁ h
    exact parse_str_eq_err h
  · intro b c n c₁ h hn
    rw [parse_str_eq_ok h, if_pos hn]
  · intro b c c₁ h
    exact parse_str_nsl_only h
  · intro x rest hxd hxi hxl hxdd hxm
    have hpk : peek (x :: rest) 0 = some x := peek_of_drop_cons (by rfl)
    unfold decode
    rw [parse_type_eq_str hpk hxi hxl hxdd,
      parse_str_eq_err (read_num_plain_nondigit hpk hxm hxd)]
    rfl
  · intro rest
    have hpk : peek (minusB :: zeroB :: rest) 0 = some minusB :=
      peek_of_drop_cons (by rfl)
    have hpk1 : peek (minusB :: zeroB :: rest) 1 = some zeroB :=
      peek_of_drop_cons (show List.drop 1 (minusB :: zeroB :: rest) = zeroB :: rest from rfl)
    unfold decode
    rw [parse_type_eq_str hpk (by decide) (by decide) (by decide),
      parse_str_eq_err (read_num_minus_zero hpk hpk1)]
    rfl
  · rfl

/-- C2 (amended): whenever a dictionary key parses and the paired value
production fails, the loop rewraps the failure as `KeyWithoutValue(key)` at
the value's failure cursor, discarding the underlying error `e` entirely;
in particular `decode("d4:iteme")` fails with `KeyWithoutValue("item")`. -/
theorem key_without_value_rewrap :
    (∀ (f g : Nat) (b : List Nat) (c : Nat) (acc : List (List Nat × BEncodingType))
       (x : Nat) (k : List Nat) (c₁ : Nat) (e : DecodingError) (c₂ : Nat),
      peek b c = some x → x ≠ eB → parse_str b c = (.ok k, c₁) →
      parse_type f b c₁ = some (.error e, c₂) →
      parse_dict_loop (parse_type f) (g + 1) b c acc =
        some (.error (.KeyWithoutValue k), c₂))
    ∧ decode [100, 52, 58, 105, 116, 101, 109, 101] =
        some (.error (.KeyWithoutValue [105, 116, 101, 109]), 7) := by
  refine ⟨?_, by rfl⟩
  intro f g b c acc x k c₁ e c₂ hpk hx hks hvl
  exact parse_dict_loop_eq_val_err hpk hx hks hvl

/-- C2 (counterexample to the claim as stated): the rewrapping loses the
underlying failure class.  `d4:iteme` (value fails with
`StringWithoutLength`) and `d4:itemi` (value fails with `EndOfFile`)
produce the identical error `KeyWithoutValue("item")` — two distinct
underlying classes are mapped to one and the same error value, so the class
is not preserved. -/
theorem key_error_cause_not_preserved :
    parse_type 5 [100, 52, 58, 105, 116, 101, 109, 101] 7 =
      some (.error .StringWithoutLength, 7)
    ∧ parse_type 5 [100, 52, 58, 105, 116, 101, 109, 105] 7 =
      some (.error .EndOfFile, 8)
    ∧ decode [100, 52, 58, 105, 116, 101, 109, 101] =
      some (.error (.KeyWithoutValue [105, 116, 101, 109]), 7)
    ∧ decode [100, 52, 58, 105, 116, 101, 109, 105] =
      some (.error (.KeyWithoutValue [105, 116, 101, 109]), 8) :=
  ⟨rfl, rfl, rfl, rfl⟩

/-- C3 (counterexample to the claim as stated): `decode("i007e")` is not
rejected — it succeeds and returns `Integer 7`. -/
theorem leading_zero_accepted_counterexample :
    decode [105, 48, 48, 55, 101] = some (.ok (.Integer 7), 5) := rfl

/-- C3 (amended): `read_num` accepts any digit sequence, leading zeros
included; the integer evaluates to the decimal value of the digits.  Only
`-0` is rejected. -/
theorem integer_leading_zeros_accepted (ds : List Nat) (hne : ds ≠ [])
    (hds : ∀ d ∈ ds, isDigitB d = true) (hlt : natFold 0 ds < 2 ^ 63) :
    decode (iB :: ds ++ [eB]) =
      some (.ok (.Integer ((natFold 0 ds : Nat) : Int)), ds.length + 2) := by
  have hdrop : (iB :: ds ++ [eB]).drop 0 = iB :: (ds ++ (eB :: [])) := rfl
  have hpk : peek (iB :: ds ++ [eB]) 0 = some iB := peek_of_drop_cons hdrop
  have hpi := parse_int_digits hdrop hne hds
  have hfw : foldW 0 ds = ((natFold 0 ds : Nat) : Int) := by
    rw [foldW_zero, wrap64_eq_self (le_trans (by norm_num) (Int.natCast_nonneg _))
      (by exact_mod_cast hlt)]
  unfold decode
  rw [parse_type_eq_int hpk, hpi, hfw]
  simp [mapRes]

/-- C8: an integer production whose digits denote a value outside the `i64`
range does not fail — the digits are accumulated by
`acc = acc * 10 + digit` with 64-bit wraparound (`foldW`, equal to a single
final wrap of the exact value) and the wrapped `Integer` is returned. -/
theorem integer_overflow_wraps (ds : List Nat) (hne : ds ≠ [])
    (hds : ∀ d ∈ ds, isDigitB d = true) (hbig : 2 ^ 63 ≤ natFold 0 ds) :
    decode (iB :: ds ++ [eB]) = some (.ok (.Integer (foldW 0 ds)), ds.length + 2)
    ∧ foldW 0 ds = wrap64 ((natFold 0 ds : Nat) : Int) := by
  have hdrop : (iB :: ds ++ [eB]).drop 0 = iB :: (ds ++ (eB :: [])) := rfl
  have hpk : peek (iB :: ds ++ [eB]) 0 = some iB := peek_of_drop_cons hdrop
  have hpi := parse_int_digits hdrop hne hds
  refine ⟨?_, foldW_zero ds⟩
  unfold decode
  rw [parse_type_eq_int hpk, hpi]
  simp [mapRes]

/-! ## Shape of the encoder's output -/

theorem encode_num_head (n : Int) :
    ∃ h t, encode_num n = h :: t ∧ (isDigitB h = true ∨ h = minusB) := by
  unfold encode_num
  by_cases hn : n < 0
  · rw [if_pos hn]
    exact ⟨minusB, toDecimal (-n).toNat, rfl, Or.inr rfl⟩
  · rw [if_neg hn]
    obtain ⟨d, t, hdt, hdig⟩ := toDecimal_head n.toNat
    exact ⟨d, t, hdt, Or.inl hdig⟩

theorem encode_bytestring_head {s : List Nat} (hlen : s.length < 2 ^ 63) :
    ∃ h t, encode_bytestring s = h :: t ∧ isDigitB h = true := by
  unfold encode_bytestring encode_num
  rw [wrap64_eq_self (le_trans (by norm_num) (Int.natCast_nonneg _)) (by exact_mod_cast hlen)]
  rw [if_neg (by simp)]
  obtain ⟨d, t, hdt, hdig⟩ := toDecimal_head (s.length : Int).toNat
  exact ⟨d, t ++ colonB :: s, by rw [hdt]; rfl, hdig⟩

theorem encode_type_head (v : BEncodingType) :
    ∃ h t, encode_type v = h :: t ∧ h ≠ eB := by
  match v with
  | .Integer n => exact ⟨iB, encode_num n ++ [eB], rfl, by decide⟩
  | .String s =>
    obtain ⟨h, t, hht, hsh⟩ := encode_num_head (wrap64 (s.length : Int))
    refine ⟨h, t ++ colonB :: s, ?_, ?_⟩
    · show encode_bytestring s = _
      unfold encode_bytestring
      rw [hht]
      rfl
    · rcases hsh with hd | hm
      · exact (digit_not_special hd).2.2.2.2
      · subst hm; decide
  | .List l => exact ⟨lB, encode_items l ++ [eB], rfl, by decide⟩
  | .Dictionary d => exact ⟨dB, encode_pairs d ++ [eB], rfl, by decide⟩

theorem encode_items_length_ge : ∀ l : List BEncodingType,
    l.length ≤ (encode_items l).length := by
  intro l
  induction l with
  | nil => simp [encode_items]
  | cons x xs ih =>
    obtain ⟨h, t, hht, _⟩ := encode_type_head x
    show (x :: xs).length ≤ (encode_type x ++ encode_items xs).length
    rw [List.length_append, hht]
    simp only [List.length_cons]
    omega

theorem encode_pairs_length_ge : ∀ ps : List (List Nat × BEncodingType),
    ps.length ≤ (encode_pairs ps).length := by
  intro ps
  induction ps with
  | nil => simp [encode_pairs]
  | cons p qs ih =>
    obtain ⟨h, t, hht, _⟩ := encode_num_head (wrap64 (p.1.length : Int))
    show (p :: qs).length ≤ (encode_bytestring p.1 ++ (encode_type p.2 ++ encode_pairs qs)).length
    have : encode_bytestring p.1 = h :: (t ++ colonB :: p.1) := by
      unfold encode_bytestring
      rw [hht]
      rfl
    rw [this]
    simp only [List.length_cons, List.length_append]
    omega

/-! ## Well-formedness projections and insertion with distinct keys -/

theorem wfL_mem : ∀ (l : List BEncodingType), wfL l = true → ∀ x ∈ l, wfV x = true := by
  intro l
  induction l with
  | nil => intro _ x hx; cases hx
  | cons y ys ih =>
    intro hl x hx
    have hl' : wfV y = true ∧ wfL ys = true := by
      have : (wfV y && wfL ys) = true := hl
      exact Bool.and_eq_true_iff.mp this
    rcases List.mem_cons.mp hx with h | h
    · subst h; exact hl'.1
    · exact ih hl'.2 x h

theorem wfD_mem : ∀ (d : List (List Nat × BEncodingType)), wfD d = true →
    ∀ p ∈ d, (p : List Nat × BEncodingType).1.length < 2 ^ 63 ∧ wfV p.2 = true := by
  intro d
  induction d with
  | nil => intro _ p hp; cases hp
  | cons q qs ih =>
    intro hd p hp
    have hd' : (decide (q.1.length < 2 ^ 63) && wfV q.2 && wfD qs) = true := hd
    simp only [Bool.and_eq_true, decide_eq_true_eq] at hd'
    rcases List.mem_cons.mp hp with h | h
    · subst h; exact ⟨hd'.1.1, hd'.1.2⟩
    · exact ih hd'.2 p h

theorem keyMem_false_iff : ∀ (m : List (List Nat × BEncodingType)) (k : List Nat),
    keyMem k m = false ↔ ∀ p ∈ m, (p : List Nat × BEncodingType).1 ≠ k := by
  intro m k
  induction m with
  | nil => simp [keyMem]
  | cons q qs ih =>
    show (decide (q.1 = k) || keyMem k qs) = false ↔ _
    simp only [Bool.or_eq_false_iff, decide_eq_false_iff_not, ih]
    constructor
    · intro ⟨h1, h2⟩ p hp
      rcases List.mem_cons.mp hp with h | h
      · subst h; exact h1
      · exact h2 p h
    · intro h
      exact ⟨h q (List.mem_cons_self _ _), fun p hp => h p (List.mem_cons_of_mem _ hp)⟩

theorem keyMem_append : ∀ (m₁ m₂ : List (List Nat × BEncodingType)) (k : List Nat),
    keyMem k (m₁ ++ m₂) = (keyMem k m₁ || keyMem k m₂) := by
  intro m₁
  induction m₁ with
  | nil => intro m₂ k; simp [keyMem]
  | cons q qs ih =>
    intro m₂ k
    show (decide (q.1 = k) || keyMem k (qs ++ m₂)) = _
    rw [ih]
    simp [keyMem, Bool.or_assoc]

theorem lhmInsert_fresh {m : List (List Nat × BEncodingType)} {k : List Nat}
    {v : BEncodingType} (h : keyMem k m = false) : lhmInsert m k v = m ++ [(k, v)] := by
  unfold lhmInsert
  rw [List.filter_eq_self.mpr]
  intro p hp
  simp only [Bool.not_eq_true', decide_eq_false_iff_not]
  exact (keyMem_false_iff m k).mp h p hp

theorem keysDistinct_cons {p : List Nat × BEncodingType}
    {ps : List (List Nat × BEncodingType)} (h : keysDistinct (p :: ps) = true) :
    keyMem p.1 ps = false ∧ keysDistinct ps = true := by
  have h' : (!(keyMem p.1 ps) && keysDistinct ps) = true := h
  simp only [Bool.and_eq_true, Bool.not_eq_true'] at h'
  exact h'

theorem foldl_lhmInsert_nodup :
    ∀ (ps : List (List Nat × BEncodingType)) (acc : List (List Nat × BEncodingType)),
    (∀ p ∈ ps, keyMem (p : List Nat × BEncodingType).1 acc = false) →
    keysDistinct ps = true →
    ps.foldl (fun m p => lhmInsert m p.1 p.2) acc = acc ++ ps := by
  intro ps
  induction ps with
  | nil => intro acc _ _; simp
  | cons p qs ih =>
    intro acc hfresh hnd
    obtain ⟨hp1, hp2⟩ := keysDistinct_cons hnd
    show qs.foldl (fun m p => lhmInsert m p.1 p.2) (lhmInsert acc p.1 p.2) = _
    rw [lhmInsert_fresh (hfresh p (List.mem_cons_self _ _))]
    have hacc : ∀ q ∈ qs, keyMem (q : List Nat × BEncodingType).1 (acc ++ [(p.1, p.2)]) = false := by
      intro q hq
      rw [keyMem_append]
      have h1 : keyMem q.1 acc = false := hfresh q (List.mem_cons_of_mem _ hq)
      have h2 : keyMem q.1 [(p.1, p.2)] = false := by
        show (decide (p.1 = q.1) || false) = false
        have : q.1 ≠ p.1 := (keyMem_false_iff qs p.1).mp hp1 q hq
        simp [this.symm]
      rw [h1, h2]
      rfl
    rw [ih (acc ++ [(p.1, p.2)]) hacc hp2]
    simp

/-! ## Parsing an encoded value reproduces it -/

theorem parse_list_loop_encode
    {pt : List Nat → Nat → Option (Except DecodingError BEncodingType × Nat)}
    {b : List Nat} {cLo : Nat} :
    ∀ (l : List BEncodingType) (g c : Nat) (acc : List BEncodingType) (rest : List Nat),
      cLo ≤ c →
      (∀ x ∈ l, ∀ c₀ rest₀, cLo ≤ c₀ → b.drop c₀ = encode_type x ++ rest₀ →
        pt b c₀ = some (.ok x, c₀ + (encode_type x).length)) →
      b.drop c = encode_items l ++ (eB :: rest) →
      l.length < g →
      parse_list_loop pt g b c acc =
        some (.ok (acc ++ l), c + (encode_items l).length + 1) := by
  intro l
  induction l with
  | nil =>
    intro g c acc rest hclo hpt hdrop hg
    obtain ⟨g', rfl⟩ : ∃ g', g = g' + 1 := ⟨g - 1, by omega⟩
    rw [show encode_items [] = [] from rfl, List.nil_append] at hdrop
    rw [parse_list_loop_eq_e (peek_of_drop_cons hdrop)]
    simp [encode_items]
  | cons x xs ih =>
    intro g c acc rest hclo hpt hdrop hg
    obtain ⟨g', rfl⟩ : ∃ g', g = g' + 1 := ⟨g - 1, by omega⟩
    have hdrop' : b.drop c = encode_type x ++ (encode_items xs ++ (eB :: rest)) := by
      rw [hdrop]
      show (encode_type x ++ encode_items xs) ++ _ = _
      rw [List.append_assoc]
    obtain ⟨h, t, hht, hhe⟩ := encode_type_head x
    have hdropc : b.drop c = h :: (t ++ (encode_items xs ++ (eB :: rest))) := by
      rw [hdrop', hht]
      rfl
    have hpk : peek b c = some h := peek_of_drop_cons hdropc
    have hel : pt b c = some (.ok x, c + (encode_type x).length) :=
      hpt x (List.mem_cons_self _ _) c _ hclo hdrop'
    rw [parse_list_loop_eq_step hpk hhe hel]
    have hdropn : b.drop (c + (encode_type x).length) = encode_items xs ++ (eB :: rest) :=
      drop_add_of_drop_append hdrop'
    rw [ih g' (c + (encode_type x).length) (acc ++ [x]) rest (by omega)
      (fun y hy c₀ rest₀ hc₀ hd => hpt y (List.mem_cons_of_mem _ hy) c₀ rest₀ hc₀ hd)
      hdropn (by simp only [List.length_cons] at hg; omega)]
    simp only [Option.some.injEq, Prod.mk.injEq, Except.ok.injEq]
    constructor
    · simp
    · show _ + (encode_items xs).length + 1 = c + (encode_items (x :: xs)).length + 1
      show _ = c + (encode_type x ++ encode_items xs).length + 1
      rw [List.length_append]
      omega

theorem parse_dict_loop_encode
    {pt : List Nat → Nat → Option (Except DecodingError BEncodingType × Nat)}
    {b : List Nat} {cLo : Nat} :
    ∀ (ps : List (List Nat × BEncodingType)) (g c : Nat)
      (acc : List (List Nat × BEncodingType)) (rest : List Nat),
      cLo ≤ c →
      (∀ p ∈ ps, (p : List Nat × BEncodingType).1.length < 2 ^ 63) →
      (∀ p ∈ ps, ∀ c₀ rest₀, cLo ≤ c₀ →
        b.drop c₀ = encode_type (p : List Nat × BEncodingType).2 ++ rest₀ →
        pt b c₀ = some (.ok p.2, c₀ + (encode_type p.2).length)) →
      b.drop c = encode_pairs ps ++ (eB :: rest) →
      ps.length < g →
      parse_dict_loop pt g b c acc =
        some (.ok (ps.foldl (fun m p => lhmInsert m p.1 p.2) acc),
          c + (encode_pairs ps).length + 1) := by
  intro ps
  induction ps with
  | nil =>
    intro g c acc rest hclo hkey hpt hdrop hg
    obtain ⟨g', rfl⟩ : ∃ g', g = g' + 1 := ⟨g - 1, by omega⟩
    rw [show encode_pairs [] = [] from rfl, List.nil_append] at hdrop
    rw [parse_dict_loop_eq_e (peek_of_drop_cons hdrop)]
    simp [encode_pairs]
  | cons p qs ih =>
    intro g c acc rest hclo hkey hpt hdrop hg
    obtain ⟨g', rfl⟩ : ∃ g', g = g' + 1 := ⟨g - 1, by omega⟩
    have hdrop' : b.drop c =
        encode_bytestring p.1 ++ (encode_type p.2 ++ (encode_pairs qs ++ (eB :: rest))) := by
      rw [hdrop]
      show (encode_bytestring p.1 ++ (encode_type p.2 ++ encode_pairs qs)) ++ _ = _
      simp [List.append_assoc]
    have hkp : p.1.length < 2 ^ 63 := hkey p (List.mem_cons_self _ _)
    obtain ⟨h, t, hht, hdig⟩ := encode_bytestring_head hkp
    have hdropc : b.drop c = h :: (t ++ (encode_type p.2 ++ (encode_pairs qs ++ (eB :: rest)))) := by
      rw [hdrop', hht]
      rfl
    have hpk : peek b c = some h := peek_of_drop_cons hdropc
    have hhe : h ≠ eB := (digit_not_special hdig).2.2.2.2
    have hks : parse_str b c = (.ok p.1, c + (encode_bytestring p.1).length) :=
      parse_str_encode hkp hdrop'
    have hdropv : b.drop (c + (encode_bytestring p.1).length) =
        encode_type p.2 ++ (encode_pairs qs ++ (eB :: rest)) :=
      drop_add_of_drop_append hdrop'
    have hvl : pt b (c + (encode_bytestring p.1).length) =
        some (.ok p.2, c + (encode_bytestring p.1).length + (encode_type p.2).length) :=
      hpt p (List.mem_cons_self _ _) _ _ (by omega) hdropv
    rw [parse_dict_loop_eq_step hpk hhe hks hvl]
    have hdropn : b.drop (c + (encode_bytestring p.1).length + (encode_type p.2).length) =
        encode_pairs qs ++ (eB :: rest) := by
      exact drop_add_of_drop_append hdropv
    rw [ih g' _ (lhmInsert acc p.1 p.2) rest (by omega)
      (fun q hq => hkey q (List.mem_cons_of_mem _ hq))
      (fun q hq c₀ rest₀ hc₀ hd => hpt q (List.mem_cons_of_mem _ hq) c₀ rest₀ hc₀ hd)
      hdropn (by simp only [List.length_cons] at hg; omega)]
    simp only [Option.some.injEq, Prod.mk.injEq, Except.ok.injEq]
    constructor
    · rfl
    · show _ = c + (encode_bytestring p.1 ++ (encode_type p.2 ++ encode_pairs qs)).length + 1
      simp only [List.length_append]
      omega

theorem parse_type_encode : ∀ (N : Nat) (v : BEncodingType), sizeOf v ≤ N → wfV v = true →
    ∀ (f : Nat) (b : List Nat) (c : Nat) (rest : List Nat),
      2 * (b.length - c) < f → b.drop c = encode_type v ++ rest →
      parse_type f b c = some (.ok v, c + (encode_type v).length) := by
  intro N
  induction N with
  | zero =>
    intro v hs
    exfalso
    cases v <;> simp at hs
  | succ N ih =>
    intro v hs hwf f b c rest hf hdrop
    cases v with
    | Integer n =>
      have hdrop2 : b.drop c = iB :: ((encode_num n ++ [eB]) ++ rest) := by
        rw [hdrop]
        rfl
      have hcb : c < b.length := lt_length_of_drop_cons hdrop2
      obtain ⟨f', rfl⟩ : ∃ f', f = f' + 1 := ⟨f - 1, by omega⟩
      have hpk : peek b c = some iB := peek_of_drop_cons hdrop2
      have hwf' : -(2 ^ 63) ≤ n ∧ n < 2 ^ 63 := by
        have h0 : (decide (-(2 ^ 63) ≤ n) && decide (n < 2 ^ 63)) = true := hwf
        simpa using h0
      have hpi := parse_int_encode hwf'.1 hwf'.2
        (show b.drop c = encode_int n ++ rest from hdrop)
      rw [parse_type_eq_int hpk, hpi]
      rfl
    | String s =>
      have hwfs : s.length < 2 ^ 63 := by
        have h0 : decide (s.length < 2 ^ 63) = true := hwf
        simpa using h0
      obtain ⟨d, t', heq, hdig⟩ := encode_bytestring_head hwfs
      have hdrop2 : b.drop c = d :: (t' ++ rest) := by
        rw [hdrop, show encode_type (.String s) = encode_bytestring s from rfl, heq]
        rfl
      have hcb : c < b.length := lt_length_of_drop_cons hdrop2
      obtain ⟨f', rfl⟩ : ∃ f', f = f' + 1 := ⟨f - 1, by omega⟩
      have hpk : peek b c = some d := peek_of_drop_cons hdrop2
      obtain ⟨hdi, hdl, hdd, hdm, hde⟩ := digit_not_special hdig
      have hps := parse_str_encode hwfs
        (show b.drop c = encode_bytestring s ++ rest from hdrop)
      rw [parse_type_eq_str hpk hdi hdl hdd, hps]
      rfl
    | List l =>
      have hdrop2 : b.drop c = lB :: ((encode_items l ++ [eB]) ++ rest) := by
        rw [hdrop]
        rfl
      have hcb : c < b.length := lt_length_of_drop_cons hdrop2
      obtain ⟨f', rfl⟩ : ∃ f', f = f' + 1 := ⟨f - 1, by omega⟩
      have hpk : peek b c = some lB := peek_of_drop_cons hdrop2
      have hE : expect_char b c lB = (.ok lB, c + 1) := expect_char_hit hpk
      have hdrop3 : b.drop (c + 1) = encode_items l ++ (eB :: rest) := by
        have h0 := drop_succ_of_drop_cons hdrop2
        rw [h0, List.append_assoc]
        rfl
      have hlen : (encode_items l).length + 1 + rest.length = b.length - (c + 1) := by
        have h1 := length_drop_eq hdrop3 (by omega)
        simp only [List.length_append, List.length_cons] at h1
        omega
      have hsl : sizeOf (BEncodingType.List l) = 1 + sizeOf l := by simp
      have hwl : wfL l = true := hwf
      have hitems := encode_items_length_ge l
      have hloop := parse_list_loop_encode l f' (c + 1) [] rest (Nat.le_refl (c + 1))
        (fun x hx c₀ rest₀ hc₀ hd =>
          ih x (by have := List.sizeOf_lt_of_mem hx; omega) (wfL_mem l hwl x hx)
            f' b c₀ rest₀ (by omega) hd)
        hdrop3 (by omega)
      rw [parse_type_eq_list hpk, parse_list'_eq_ok hE, hloop]
      simp only [Option.map_some', mapRes, List.nil_append, Option.some.injEq,
        Prod.mk.injEq, true_and]
      show c + 1 + (encode_items l).length + 1 = c + (lB :: (encode_items l ++ [eB])).length
      simp only [List.length_cons, List.length_append, List.length_nil]
      omega
    | Dictionary d =>
      have hdrop2 : b.drop c = dB :: ((encode_pairs d ++ [eB]) ++ rest) := by
        rw [hdrop]
        rfl
      have hcb : c < b.length := lt_length_of_drop_cons hdrop2
      obtain ⟨f', rfl⟩ : ∃ f', f = f' + 1 := ⟨f - 1, by omega⟩
      have hpk : peek b c = some dB := peek_of_drop_cons hdrop2
      have hE : expect_char b c dB = (.ok dB, c + 1) := expect_char_hit hpk
      have hdrop3 : b.drop (c + 1) = encode_pairs d ++ (eB :: rest) := by
        have h0 := drop_succ_of_drop_cons hdrop2
        rw [h0, List.append_assoc]
        rfl
      have hlen : (encode_pairs d).length + 1 + rest.length = b.length - (c + 1) := by
        have h1 := length_drop_eq hdrop3 (by omega)
        simp only [List.length_append, List.length_cons] at h1
        omega
      have hsd : sizeOf (BEncodingType.Dictionary d) = 1 + sizeOf d := by simp
      have hwf' : keysDistinct d = true ∧ wfD d = true := by
        have h0 : (keysDistinct d && wfD d) = true := hwf
        simpa using h0
      have hpairs := encode_pairs_length_ge d
      have hloop := parse_dict_loop_encode d f' (c + 1) [] rest (Nat.le_refl (c + 1))
        (fun p hp => (wfD_mem d hwf'.2 p hp).1)
        (fun p hp c₀ rest₀ hc₀ hd =>
          ih p.2
            (by
              have h1 := List.sizeOf_lt_of_mem hp
              have h2 : sizeOf p.2 < sizeOf p := by
                obtain ⟨k, w⟩ := p
                simp
              omega)
            ((wfD_mem d hwf'.2 p hp).2) f' b c₀ rest₀ (by omega) hd)
        hdrop3 (by omega)
      rw [parse_type_eq_dict hpk, parse_dict'_eq_ok hE, hloop]
      rw [foldl_lhmInsert_nodup d [] (fun p _ => rfl) hwf'.1]
      simp only [Option.map_some', mapRes, List.nil_append, Option.some.injEq,
        Prod.mk.injEq, true_and]
      show c + 1 + (encode_pairs d).length + 1 = c + (dB :: (encode_pairs d ++ [eB])).length
      simp only [List.length_cons, List.length_append, List.length_nil]
      omega

/-! ## Claim C1: the round trip -/

/-- C1: for every well-formed value tree `v` (integers in `i64` range,
string and key lengths representable, dictionary keys distinct), decoding
`encode v` succeeds, returns exactly `v`, and consumes the whole buffer. -/
theorem decode_encode_roundtrip (v : BEncodingType) (hwf : wfV v = true) :
    decode (encode v) = some (.ok v, (encode v).length) := by
  have h := parse_type_encode (sizeOf v) v (Nat.le_refl _) hwf
    (2 * (encode_type v).length + 1) (encode_type v) 0 [] (by omega) (by simp)
  simpa [decode, encode] using h

theorem decode_encode_roundtrip_witness :
    decode (encode (.Dictionary [([97], .Integer (-123)),
        ([98], .List [.String [104, 105], .Integer 7])])) =
      some (.ok (.Dictionary [([97], .Integer (-123)),
        ([98], .List [.String [104, 105], .Integer 7])]),
        (encode (.Dictionary [([97], .Integer (-123)),
          ([98], .List [.String [104, 105], .Integer 7])])).length) :=
  decode_encode_roundtrip
    (.Dictionary [([97], .Integer (-123)), ([98], .List [.String [104, 105], .Integer 7])])
    (by decide)

/-! ## Claim C7: duplicate keys on the wire -/

theorem filter_lhmInsert_same (m : List (List Nat × BEncodingType)) (k : List Nat)
    (v : BEncodingType) :
    (lhmInsert m k v).filter (fun p => decide (p.1 = k)) = [(k, v)] := by
  unfold lhmInsert
  rw [List.filter_append]
  have h1 : ((m.filter (fun p => !(decide (p.1 = k)))).filter
      (fun p => decide (p.1 = k))) = [] := by
    rw [List.filter_filter]
    apply List.filter_eq_nil_iff.mpr
    intro a _
    simp
  rw [h1, List.nil_append]
  simp

theorem filter_lhmInsert_other (m : List (List Nat × BEncodingType))
    {q k : List Nat} (v : BEncodingType) (h : q ≠ k) :
    (lhmInsert m q v).filter (fun p => decide (p.1 = k)) =
      m.filter (fun p => decide (p.1 = k)) := by
  unfold lhmInsert
  rw [List.filter_append]
  have h2 : ([(q, v)].filter (fun p => decide (p.1 = k))) = [] := by
    simp [h]
  rw [h2, List.append_nil, List.filter_filter]
  apply List.filter_congr
  intro a _
  by_cases ha : a.1 = k
  · simp [ha, Ne.symm h]
  · simp [ha]

theorem getLast_mem_of_some {α : Type} {l : List α} {a : α} (h : l.getLast? = some a) :
    a ∈ l := by
  have hne : l ≠ [] := by
    intro e
    subst e
    simp at h
  rw [List.getLast?_eq_getLast l hne] at h
  simp only [Option.some.injEq] at h
  rw [← h]
  exact List.getLast_mem hne

theorem getLast_some_of_ne_nil {α : Type} {l : List α} (h : l ≠ []) :
    ∃ a, l.getLast? = some a := by
  cases hc : l.getLast? with
  | none => exact absurd (List.getLast?_eq_none_iff.mp hc) h
  | some a => exact ⟨a, rfl⟩

theorem getLast_cons_of_ne_nil {α : Type} (x : α) {xs : List α} (h : xs ≠ []) :
    (x :: xs).getLast? = xs.getLast? := by
  cases xs with
  | nil => exact absurd rfl h
  | cons y ys => exact List.getLast?_cons_cons

/-- Folding `lhmInsert` over pairs none of whose keys is `k` leaves the
entries at `k` untouched. -/
theorem foldl_lhmInsert_filter_nil (k : List Nat) :
    ∀ (ps acc : List (List Nat × BEncodingType)),
      ps.filter (fun p => decide (p.1 = k)) = [] →
      (ps.foldl (fun m p => lhmInsert m p.1 p.2) acc).filter (fun p => decide (p.1 = k)) =
        acc.filter (fun p => decide (p.1 = k)) := by
  intro ps
  induction ps with
  | nil => intro acc _; rfl
  | cons p qs ih =>
    intro acc hnil
    by_cases hp : (decide (p.1 = k)) = true
    · rw [List.filter_cons, if_pos hp] at hnil
      exact absurd hnil (by simp)
    · rw [List.filter_cons, if_neg hp] at hnil
      show (qs.foldl (fun m p => lhmInsert m p.1 p.2) (lhmInsert acc p.1 p.2)).filter _ = _
      rw [ih (lhmInsert acc p.1 p.2) hnil,
        filter_lhmInsert_other acc p.2 (by simpa using hp)]

/-- Folding `lhmInsert` over a pair list leaves, at any key `k` that occurs
in the list, exactly the last inserted entry for `k`. -/
theorem foldl_lhmInsert_filter_last (k : List Nat) :
    ∀ (ps acc : List (List Nat × BEncodingType)) (q : List Nat × BEncodingType),
      (ps.filter (fun p => decide (p.1 = k))).getLast? = some q →
      (ps.foldl (fun m p => lhmInsert m p.1 p.2) acc).filter (fun p => decide (p.1 = k)) =
        [q] := by
  intro ps
  induction ps with
  | nil =>
    intro acc q h
    simp at h
  | cons p qs ih =>
    intro acc q h
    show (qs.foldl (fun m p => lhmInsert m p.1 p.2) (lhmInsert acc p.1 p.2)).filter _ = _
    by_cases hq : qs.filter (fun p => decide (p.1 = k)) = []
    · by_cases hp : (decide (p.1 = k)) = true
      · rw [List.filter_cons, if_pos hp, hq] at h
        simp only [List.getLast?_singleton, Option.some.injEq] at h
        have hpk : p.1 = k := by simpa using hp
        rw [foldl_lhmInsert_filter_nil k qs (lhmInsert acc p.1 p.2) hq, ← h, hpk,
          filter_lhmInsert_same]
        rw [← hpk]
      · rw [List.filter_cons, if_neg hp, hq] at h
        simp at h
    · obtain ⟨q', hq'⟩ := getLast_some_of_ne_nil hq
      have hqq : q' = q := by
        by_cases hp : (decide (p.1 = k)) = true
        · rw [List.filter_cons, if_pos hp, getLast_cons_of_ne_nil _ hq, hq'] at h
          simpa using h
        · rw [List.filter_cons, if_neg hp, hq'] at h
          simpa using h
      rw [ih (lhmInsert acc p.1 p.2) q' hq', hqq]

/-- Decoding an encoded dictionary body (no key-distinctness assumed)
succeeds and builds the map by repeated `lhmInsert`. -/
theorem decode_dict_pairs (ps : List (List Nat × BEncodingType))
    (hwf : ∀ p ∈ ps, (p : List Nat × BEncodingType).1.length < 2 ^ 63 ∧ wfV p.2 = true) :
    decode (dB :: (encode_pairs ps ++ [eB])) =
      some (.ok (.Dictionary (ps.foldl (fun m p => lhmInsert m p.1 p.2) [])),
        (dB :: (encode_pairs ps ++ [eB])).length) := by
  have hlen : (dB :: (encode_pairs ps ++ [eB])).length = (encode_pairs ps).length + 2 := by
    simp
  have hpk : peek (dB :: (encode_pairs ps ++ [eB])) 0 = some dB :=
    peek_of_drop_cons (show (dB :: (encode_pairs ps ++ [eB])).drop 0 =
      dB :: (encode_pairs ps ++ [eB]) from rfl)
  have hdrop1 : (dB :: (encode_pairs ps ++ [eB])).drop 1 = encode_pairs ps ++ (eB :: []) :=
    rfl
  unfold decode
  rw [parse_type_eq_dict hpk, parse_dict'_eq_ok (expect_char_hit hpk)]
  rw [parse_dict_loop_encode ps (2 * (dB :: (encode_pairs ps ++ [eB])).length) 1 [] []
    (Nat.le_refl 1)
    (fun p hp => (hwf p hp).1)
    (fun p hp c₀ rest₀ hc₀ hd =>
      parse_type_encode (sizeOf p.2) p.2 (Nat.le_refl _) (hwf p hp).2
        (2 * (dB :: (encode_pairs ps ++ [eB])).length) _ c₀ rest₀
        (by simp only [List.length_cons]; omega) hd)
    hdrop1
    (by
      have := encode_pairs_length_ge ps
      simp only [List.length_cons, List.length_append, List.length_nil]
      omega)]
  simp only [Option.map_some', mapRes, Option.some.injEq, Prod.mk.injEq, true_and]
  omega

/-- C7: a syntactically well-formed dictionary production that repeats a key
`k` still decodes successfully; the resulting map holds `k` exactly once,
bound to the value of the last occurrence of `k` on the wire
(last-write-wins). -/
theorem duplicate_keys_last_write_wins (ps : List (List Nat × BEncodingType))
    (k : List Nat)
    (hwf : ∀ p ∈ ps, (p : List Nat × BEncodingType).1.length < 2 ^ 63 ∧ wfV p.2 = true)
    (hdup : 2 ≤ (ps.filter (fun p => decide (p.1 = k))).length) :
    ∃ vlast,
      (ps.filter (fun p => decide (p.1 = k))).getLast? = some (k, vlast)
      ∧ decode (dB :: (encode_pairs ps ++ [eB])) =
          some (.ok (.Dictionary (ps.foldl (fun m p => lhmInsert m p.1 p.2) [])),
            (dB :: (encode_pairs ps ++ [eB])).length)
      ∧ (ps.foldl (fun m p => lhmInsert m p.1 p.2) []).filter
          (fun p => decide (p.1 = k)) = [(k, vlast)] := by
  have hne : ps.filter (fun p => decide (p.1 = k)) ≠ [] := by
    intro h
    rw [h] at hdup
    simp at hdup
  obtain ⟨q, hq⟩ := getLast_some_of_ne_nil hne
  have hqk : q.1 = k := by
    have := List.of_mem_filter (getLast_mem_of_some hq)
    simpa using this
  refine ⟨q.2, ?_, decode_dict_pairs ps hwf, ?_⟩
  · rw [hq, ← hqk]
  · rw [foldl_lhmInsert_filter_last k ps [] q hq, ← hqk]

theorem duplicate_keys_last_write_wins_witness :
    ∃ vlast,
      (([([97], BEncodingType.Integer 1),
          ([97], BEncodingType.Integer 2)].filter
        (fun p => decide (p.1 = [97]))).getLast? = some ([97], vlast))
      ∧ decode (dB :: (encode_pairs [([97], BEncodingType.Integer 1),
            ([97], BEncodingType.Integer 2)] ++ [eB])) =
          some (.ok (.Dictionary ([([97], BEncodingType.Integer 1),
              ([97], BEncodingType.Integer 2)].foldl
            (fun m p => lhmInsert m p.1 p.2) [])),
            (dB :: (encode_pairs [([97], BEncodingType.Integer 1),
              ([97], BEncodingType.Integer 2)] ++ [eB])).length)
      ∧ ([([97], BEncodingType.Integer 1),
            ([97], BEncodingType.Integer 2)].foldl
          (fun m p => lhmInsert m p.1 p.2) []).filter
          (fun p => decide (p.1 = [97])) = [([97], vlast)] :=
  duplicate_keys_last_write_wins
    [([97], BEncodingType.Integer 1), ([97], BEncodingType.Integer 2)] [97]
    (by decide) (by decide)

/-! ## Witnesses at concrete inputs -/

theorem key_without_value_rewrap_witness :
    parse_dict_loop (parse_type 5) 5 [100, 52, 58, 105, 116, 101, 109, 101] 1 [] =
      some (.error (.KeyWithoutValue [105, 116, 101, 109]), 7) :=
  key_without_value_rewrap.1 5 4 [100, 52, 58, 105, 116, 101, 109, 101] 1 [] 52
    [105, 116, 101, 109] 7 .StringWithoutLength 7 rfl (by decide) rfl rfl

theorem integer_leading_zeros_accepted_witness :
    decode (iB :: [48, 48, 55] ++ [eB]) =
      some (.ok (.Integer ((natFold 0 [48, 48, 55] : Nat) : Int)), [48, 48, 55].length + 2) :=
  integer_leading_zeros_accepted [48, 48, 55] (by decide) (by decide) (by decide)

theorem string_overrun_end_of_file_witness :
    decode ([51] ++ colonB :: [97, 98]) =
      some (.error .EndOfFile, ([51] ++ colonB :: [97, 98]).length) :=
  string_overrun_end_of_file [51] [97, 98] (by decide) (by decide) (by decide) (by decide)

theorem decode_ignores_trailing_witness :
    decode ([105, 49, 101] ++ [120]) = some (.ok (.Integer 1), 3) :=
  decode_ignores_trailing [105, 49, 101] [120] (.Integer 1) 3 rfl

theorem integer_overflow_wraps_witness :
    decode (iB :: [57, 50, 50, 51, 51, 55, 50, 48, 51, 54, 56, 53, 52, 55, 55, 53, 56,
        48, 56] ++ [eB]) =
      some (.ok (.Integer (foldW 0 [57, 50, 50, 51, 51, 55, 50, 48, 51, 54, 56, 53, 52,
          55, 55, 53, 56, 48, 56])),
        [57, 50, 50, 51, 51, 55, 50, 48, 51, 54, 56, 53, 52, 55, 55, 53, 56, 48,
          56].length + 2)
    ∧ foldW 0 [57, 50, 50, 51, 51, 55, 50, 48, 51, 54, 56, 53, 52, 55, 55, 53, 56, 48, 56] =
        wrap64 ((natFold 0 [57, 50, 50, 51, 51, 55, 50, 48, 51, 54, 56, 53, 52, 55, 55,
          53, 56, 48, 56] : Nat) : Int) :=
  integer_overflow_wraps
    [57, 50, 50, 51, 51, 55, 50, 48, 51, 54, 56, 53, 52, 55, 55, 53, 56, 48, 56]
    (by decide) (by decide) (by decide)

theorem string_length_error_collapse_witness :
    parse_str [97, 98, 99] 0 = (.error .StringWithoutLength, 0)
    ∧ parse_str [45, 51, 58, 97] 0 = (.error .NegativeStringLen, 2)
    ∧ (∃ n : Int, read_num [45, 51, 58, 97] 0 = (.ok n, 2) ∧ n < 0)
    ∧ decode [58] = some (.error .StringWithoutLength, 0)
    ∧ decode [45, 48] = some (.error .StringWithoutLength, 1)
    ∧ decode [45] = some (.error .StringWithoutLength, 1) :=
  ⟨string_length_error_collapse.1 [97, 98, 99] 0 .NotANumber 0 rfl,
   string_length_error_collapse.2.1 [45, 51, 58, 97] 0 (-3) 2 (by rfl) (by decide),
   string_length_error_collapse.2.2.1 [45, 51, 58, 97] 0 2
     (string_length_error_collapse.2.1 [45, 51, 58, 97] 0 (-3) 2 (by rfl) (by decide)),
   string_length_error_collapse.2.2.2.1 58 [] (by decide) (by decide) (by decide)
     (by decide) (by decide),
   string_length_error_collapse.2.2.2.2.1 [],
   string_length_error_collapse.2.2.2.2.2⟩

/-! ## Sanity checks against the unit tests of `bdecode.rs` / `bencode.rs` -/

example : parse_int [105, 49, 50, 51, 101] 0 = (.ok 123, 5) := by rfl
example : parse_int [105, 45, 49, 50, 51, 101] 0 = (.ok (-123), 6) := by rfl
example : parse_int [105, 45, 48, 101] 0 = (.error .NegativeZero, 2) := by rfl
example : parse_int [97, 98, 99] 0 = (.error (.MissingIdentifier iB), 0) := by rfl
example : parse_int [105, 97, 98, 99] 0 = (.error .NotANumber, 1) := by rfl
example : parse_int [105, 45, 97, 98, 99] 0 = (.error .NotANumber, 2) := by rfl
example : parse_int [105, 50, 51, 97, 98, 99] 0 = (.error (.MissingIdentifier eB), 3) := by rfl
example : parse_int [105, 50, 51] 0 = (.error .EndOfFile, 3) := by rfl

example : parse_str [51, 58, 97, 98, 99] 0 = (.ok [97, 98, 99], 5) := by rfl
example : parse_str [48, 58] 0 = (.ok [], 2) := by rfl
example : parse_str [97, 98, 99] 0 = (.error .StringWithoutLength, 0) := by rfl
example : parse_str [45, 51, 58, 97, 98, 99] 0 = (.error .NegativeStringLen, 2) := by rfl
example : parse_str [51, 97, 98, 99] 0 = (.error (.MissingIdentifier colonB), 1) := by rfl
example : parse_str [51, 58, 97, 98] 0 = (.error .EndOfFile, 4) := by rfl

-- "le", "li123ee", "l3:abce", "llleelleee" (as full decodes)
example : decode [108, 101] = some (.ok (.List []), 2) := by rfl
example : decode [108, 105, 49, 50, 51, 101, 101] =
    some (.ok (.List [.Integer 123]), 7) := by rfl
example : decode [108, 51, 58, 97, 98, 99, 101] =
    some (.ok (.List [.String [97, 98, 99]]), 7) := by rfl
example : decode [108, 108, 108, 101, 101, 108, 108, 101, 101, 101] =
    some (.ok (.List [.List [.List []], .List [.List []]]), 10) := by rfl
example : decode [108, 51, 58, 97, 98, 99] = some (.error .EndOfFile, 6) := by rfl

-- "de", "d1:ai123ee", "d4:iteme", "d1:a2:bc"
example : decode [100, 101] = some (.ok (.Dictionary []), 2) := by rfl
example : decode [100, 49, 58, 97, 105, 49, 50, 51, 101, 101] =
    some (.ok (.Dictionary [([97], .Integer 123)]), 10) := by rfl
example : decode [100, 52, 58, 105, 116, 101, 109, 101] =
    some (.error (.KeyWithoutValue [105, 116, 101, 109]), 7) := by rfl
example : decode [100, 49, 58, 97, 50, 58, 98, 99] = some (.error .EndOfFile, 8) := by rfl

-- encoder: "i0e", "i1234e", "i-123e", "4:abcd", "le", "d5:item1i123e5:item25:valuee"
example : encode (.Integer 0) = [105, 48, 101] := by rfl
example : encode (.Integer 1234) = [105, 49, 50, 51, 52, 101] := by rfl
example : encode (.Integer (-123)) = [105, 45, 49, 50, 51, 101] := by rfl
example : encode (.String [97, 98, 99, 100]) = [52, 58, 97, 98, 99, 100] := by rfl
example : encode (.List []) = [108, 101] := by rfl
example : encode (.Dictionary [([97], .Integer 123)]) =
    [100, 49, 58, 97, 105, 49, 50, 51, 101, 101] := by rfl

-- "d1:al3:heye1:blee"
example : decode [100, 49, 58, 97, 108, 51, 58, 104, 101, 121, 101, 49, 58, 98, 108, 101, 101] =
    some (.ok (.Dictionary [([97], .List [.String [104, 101, 121]]), ([98], .List [])]), 17) := by
  rfl
